import Mathlib

set_option maxRecDepth 100000

/-!
# Verification of the torrent-rs client core

Shallow embedding of the torrent-rs sources (`decode_torrent.rs`, `tracker.rs`,
`handshake.rs`, `file.rs`, `peer.rs`) in Lean 4, together with theorems settling
the specification claims about them.

Conventions:
* Rust byte slices (`&[u8]`) are modelled as `List Nat`, each element intended
  to lie below 256 (hypotheses state this where it matters).
* Rust machine integers are modelled as `Nat` with explicit `% 2 ^ w` where
  overflow matters.
* Fallible / panicking code is modelled with `Option`: `none` models a panic
  (failed `assert!`, out-of-bounds index, `unwrap` on `Err`).
* Loops that are not structurally recursive are modelled with an explicit fuel
  argument whose value at each call site provably dominates the number of
  iterations, so `none`-by-fuel-exhaustion is unreachable at those call sites.
-/

namespace TorrentRs

/-! ## Byte-level helpers -/

/-- ASCII code of `'d'`. -/
def dC : Nat := 100

/-- ASCII code of `'e'`. -/
def eC : Nat := 101

/-- ASCII code of `'i'`. -/
def iC : Nat := 105

/-- ASCII code of `'l'`. -/
def lC : Nat := 108

/-- ASCII code of `':'`. -/
def colonC : Nat := 58

/-- Whether `b` is an ASCII decimal digit, `b'0'..=b'9'`. -/
def isDigitB (b : Nat) : Bool := 48 ≤ b && b ≤ 57

/-- Rust `x & (1 << k) != 0` on a byte `x`. -/
def testBit (x k : Nat) : Bool := x.land (2 ^ k) ≠ 0

/-- Big-endian decoding of a byte list, `u32::from_be_bytes` /
`u16::from_be_bytes` style (the length of the list fixes the width). -/
def beBytesToNat (l : List Nat) : Nat := l.foldl (fun acc b => acc * 256 + b) 0

/-- Little-endian decoding of a byte list. -/
def leBytesToNat (l : List Nat) : Nat := beBytesToNat l.reverse

/-- Rust `from_ne_bytes`: native byte order, parametrised by whether the target is
little-endian (true for the x86-64/aarch64 Linux targets this crate builds
for, but kept as a parameter so that theorems quantify over it). -/
def neBytesToNat (le : Bool) (l : List Nat) : Nat :=
  if le then leBytesToNat l else beBytesToNat l

/-- Sequential in-place writes: for each pair `(k, y)` of index offset and
byte, set `l[off + k] = y`. Mirrors the `iter_mut().zip(..)` patch loops in
the sources. Out-of-range writes are dropped by `List.set`; every use site
guards the range first. -/
def writeSeq : List Nat → Nat → List Nat → List Nat
  | l, _, [] => l
  | l, off, y :: ys => writeSeq (l.set off y) (off + 1) ys

/-! ## Handshake codec (`src/handshake.rs`)

The Rust struct has fields `pstr_len: u8`, `protocol: [u8; 19]`,
`reserved: [u8; 8]`, `info_hash: [u8; 20]`, `peer_id: [u8; 20]`. -/

/-- Rust `Handshake` (handshake.rs:10). Fixed-width byte-array fields are lists
whose lengths are constrained by `Handshake.wf`. -/
structure Handshake where
  pstr_len : Nat
  protocol : List Nat
  reserved : List Nat
  info_hash : List Nat
  peer_id : List Nat
  deriving DecidableEq, Repr

/-- The width invariants of the Rust field types (`u8`, `[u8; 19]`, `[u8; 8]`,
`[u8; 20]`, `[u8; 20]`). -/
def Handshake.wf (h : Handshake) : Prop :=
  h.pstr_len < 256 ∧ h.protocol.length = 19 ∧ h.reserved.length = 8 ∧
    h.info_hash.length = 20 ∧ h.peer_id.length = 20

instance (h : Handshake) : Decidable h.wf := by
  unfold Handshake.wf; infer_instance

/-- Rust `Handshake::new` (handshake.rs:31): decode the 68-byte frame by fixed
slicing: `input[0]`, `input[1..20]`, `input[20..28]`, `input[28..48]`,
`input[48..]`. -/
def Handshake.new (input : List Nat) : Handshake where
  pstr_len := input.getD 0 0
  protocol := (input.drop 1).take 19
  reserved := (input.drop 20).take 8
  info_hash := (input.drop 28).take 20
  peer_id := input.drop 48

/-- Rust `Handshake::to_bytes` (handshake.rs:44): field concatenation into the
68-byte frame, `res[0] = pstr_len` then byte-copies of the four arrays. -/
def Handshake.to_bytes (h : Handshake) : List Nat :=
  h.pstr_len :: (h.protocol ++ h.reserved ++ h.info_hash ++ h.peer_id)

/-! ## Hex digests (`decode_torrent.rs::bytes_to_hash`,
`tracker.rs::hash_to_bytes`) -/

/-- Lowercase hex character (as ASCII code) of a value `< 16`. -/
def hexChar (n : Nat) : Nat := if n < 10 then 48 + n else 87 + n

/-- Rust `bytes_to_hash` (decode_torrent.rs:218): renders each byte with
the 02x format spec — zero-padded two-digit lowercase hex — and
concatenates; for `c : u8` that is exactly the two lowercase hex characters
of `c`. The result `String` is modelled as its byte list. -/
def bytes_to_hash (hash : List Nat) : List Nat :=
  hash.flatMap (fun c => [hexChar (c / 16), hexChar (c % 16)])

/-- Value of an ASCII hex digit (`0-9`, `a-f`, `A-F`), or `none`. -/
def hexDigitVal (c : Nat) : Option Nat :=
  if 48 ≤ c ∧ c ≤ 57 then some (c - 48)
  else if 97 ≤ c ∧ c ≤ 102 then some (c - 87)
  else if 65 ≤ c ∧ c ≤ 70 then some (c - 55)
  else none

/-- Rust `u8::from_str_radix(s, 16)` on a one- or two-character chunk; `none`
models the `Err` case (whose `unwrap` panics in `hash_to_bytes`). -/
def fromStrRadix16 : List Nat → Option Nat
  | [c] => hexDigitVal c
  | [c1, c2] => do
    let h ← hexDigitVal c1
    let l ← hexDigitVal c2
    pure (h * 16 + l)
  | _ => none

/-- Rust `slice::chunks(2)`: split into consecutive chunks of two, the last chunk
possibly shorter. -/
def chunksTwo : List Nat → List (List Nat)
  | [] => []
  | [a] => [[a]]
  | a :: b :: t => [a, b] :: chunksTwo t

/-- Rust `hash_to_bytes` (tracker.rs:66): split the hex string in chunks of two,
parse each with `from_str_radix(_, 16).unwrap()` (panic = `none`), and write
the values into `res = [0u8; 20]` at consecutive indices (an index ≥ 20
panics = `none`). -/
def hash_to_bytes (hash : List Nat) : Option (List Nat) := do
  let vals ← (chunksTwo hash).mapM fromStrRadix16
  if vals.length ≤ 20 then
    pure (writeSeq (List.replicate 20 0) 0 vals)
  else
    none

/-! ## SHA-1 (the `sha1` crate as used by `decode_torrent.rs` / `file.rs`)

Standard FIPS 180-4 SHA-1 over byte lists, with 32-bit words as `Nat` reduced
`% 2 ^ 32`. The bitwise complement of a word `b < 2 ^ 32` is written
`0xFFFFFFFF - b`. -/

/-- 32-bit left rotation of `x < 2 ^ 32`. -/
def rotl32 (x n : Nat) : Nat :=
  ((x * 2 ^ n) % 2 ^ 32) ||| (x / 2 ^ (32 - n))

/-- SHA-1 round constants. -/
def sha1K (t : Nat) : Nat :=
  if t < 20 then 0x5A827999 else if t < 40 then 0x6ED9EBA1
  else if t < 60 then 0x8F1BBCDC else 0xCA62C1D6

/-- SHA-1 round functions. -/
def sha1F (t b c d : Nat) : Nat :=
  if t < 20 then (b.land c) ||| ((0xFFFFFFFF - b).land d)
  else if t < 40 then (b.xor c).xor d
  else if t < 60 then ((b.land c) ||| (b.land d)) ||| (c.land d)
  else (b.xor c).xor d

/-- Big-endian 32-bit words from a byte list. -/
def bytesToWordsBE : List Nat → List Nat
  | b0 :: b1 :: b2 :: b3 :: rest =>
    (((b0 * 256 + b1) * 256 + b2) * 256 + b3) :: bytesToWordsBE rest
  | _ => []

/-- Message-schedule extension, most recent word first. -/
def sha1ExtendRev (fuel : Nat) (ws : List Nat) : List Nat :=
  match fuel with
  | 0 => ws
  | f + 1 =>
    sha1ExtendRev f
      (rotl32 ((((ws.getD 2 0).xor (ws.getD 7 0)).xor (ws.getD 13 0)).xor
        (ws.getD 15 0)) 1 :: ws)

/-- The 80 SHA-1 rounds over the schedule words. -/
def sha1RoundsGo : Nat → List Nat → Nat → Nat → Nat → Nat → Nat →
    Nat × Nat × Nat × Nat × Nat
  | _, [], a, b, c, d, e => (a, b, c, d, e)
  | t, w :: ws, a, b, c, d, e =>
    sha1RoundsGo (t + 1) ws
      ((rotl32 a 5 + sha1F t b c d + e + sha1K t + w) % 2 ^ 32)
      a (rotl32 b 30) c d

/-- One SHA-1 compression over a 64-byte block. -/
def sha1Compress (h : Nat × Nat × Nat × Nat × Nat) (block : List Nat) :
    Nat × Nat × Nat × Nat × Nat :=
  let w := (sha1ExtendRev 64 (bytesToWordsBE block).reverse).reverse
  let r := sha1RoundsGo 0 w h.1 h.2.1 h.2.2.1 h.2.2.2.1 h.2.2.2.2
  ((h.1 + r.1) % 2 ^ 32, (h.2.1 + r.2.1) % 2 ^ 32,
    (h.2.2.1 + r.2.2.1) % 2 ^ 32, (h.2.2.2.1 + r.2.2.2.1) % 2 ^ 32,
    (h.2.2.2.2 + r.2.2.2.2) % 2 ^ 32)

/-- Big-endian bytes of a 64-bit value. -/
def beWord64 (n : Nat) : List Nat :=
  [n / 2 ^ 56 % 256, n / 2 ^ 48 % 256, n / 2 ^ 40 % 256, n / 2 ^ 32 % 256,
    n / 2 ^ 24 % 256, n / 2 ^ 16 % 256, n / 2 ^ 8 % 256, n % 256]

/-- Big-endian bytes of a 32-bit value. -/
def beWord32 (n : Nat) : List Nat :=
  [n / 2 ^ 24 % 256, n / 2 ^ 16 % 256, n / 2 ^ 8 % 256, n % 256]

/-- SHA-1 padding: `0x80`, zeros, 64-bit big-endian bit length. -/
def sha1Pad (msg : List Nat) : List Nat :=
  let r := msg.length % 64
  let zeros := if r ≤ 55 then 55 - r else 119 - r
  msg ++ [128] ++ List.replicate zeros 0 ++ beWord64 (8 * msg.length)

/-- Iterate the compression over the 64-byte blocks. -/
def sha1BlocksGo : Nat → (Nat × Nat × Nat × Nat × Nat) → List Nat →
    Nat × Nat × Nat × Nat × Nat
  | 0, h, _ => h
  | f + 1, h, msg => sha1BlocksGo f (sha1Compress h (msg.take 64)) (msg.drop 64)

/-- SHA-1 digest (20 bytes) of a byte list. -/
def sha1 (msg : List Nat) : List Nat :=
  let padded := sha1Pad msg
  let h := sha1BlocksGo (padded.length / 64)
    (0x67452301, 0xEFCDAB89, 0x98BADCFE, 0x10325476, 0xC3D2E1F0) padded
  beWord32 h.1 ++ beWord32 h.2.1 ++ beWord32 h.2.2.1 ++ beWord32 h.2.2.2.1 ++
    beWord32 h.2.2.2.2

/-! ## Info-hash extraction (`decode_torrent.rs::get_info_hash`) -/

/-- Rust `bytes_to_num` (decode_torrent.rs:32): decimal accumulation over the byte
run, `res = res * 10 + (x - b'0')`. The `Nat` monus models the `u8`
subtraction; every call site in a well-formed scan passes ASCII digits (on
other bytes a debug build of the source would panic on the subtraction). -/
def bytes_to_num (input : List Nat) : Nat :=
  input.foldl (fun res x => res * 10 + (x - 48)) 0

/-- The literal `b"4:infod"` that the first loop of `get_info_hash` scans
for. -/
def infoLit : List Nat := [52, 58, 105, 110, 102, 111, 100]

/-- The first loop of `get_info_hash` (decode_torrent.rs:48): slide a 7-byte
window; the slice `input[idx..idx + 7]` panics (`none`) once fewer than 7
bytes remain, i.e. when the literal does not occur. On a match, the scan
resumes right after the literal (`idx += 7`). -/
def findLit : List Nat → Option (List Nat)
  | [] => none
  | b :: t =>
    if (b :: t).length < 7 then none
    else if (b :: t).take 7 = infoLit then some ((b :: t).drop 7)
    else findLit t

/-- Split a list at the first occurrence of `c`: the bytes strictly before
it, and the remainder starting with `c`; `none` when `c` does not occur
(modelling the inner `while input[idx + ..] != c` loops running out of
bounds). -/
def splitUntil (c : Nat) : List Nat → Option (List Nat × List Nat)
  | [] => none
  | x :: t =>
    if x = c then some ([], x :: t)
    else
      match splitUntil c t with
      | none => none
      | some (pre, rest) => some (x :: pre, rest)

/-- The token-scanning loop of `get_info_hash` (decode_torrent.rs:61),
returning the bytes it pushes onto `buf` up to (excluding) the `'e'` that
closes the info dictionary at stack depth 0. Branches in source order:
`b'e'` at depth 0 breaks; `b'e'` pops; a digit copies a
`<len>:<bytes>` string verbatim (`none` when the colon scan or the
`len + 1`-byte copy runs past the end); `b'i'` copies verbatim through the
next `'e'`; `b'l'`/`b'd'` push; anything else hits `panic!` (`none`). The
fuel is the remaining input length, which strictly dominates the iteration
count since every iteration consumes at least one byte, so fuel exhaustion
only coincides with the genuine out-of-bounds panic on empty remaining
input. -/
def scanFuel : Nat → List Nat → Nat → Option (List Nat)
  | _, [], _ => none
  | 0, _ :: _, _ => none
  | fuel + 1, b :: t, stack =>
    if b = eC then
      if stack = 0 then some []
      else (scanFuel fuel t (stack - 1)).map (fun r => b :: r)
    else if isDigitB b then
      match splitUntil colonC (b :: t) with
      | none => none
      | some (ds, rest) =>
        if bytes_to_num ds + 1 ≤ rest.length then
          (scanFuel fuel (rest.drop (bytes_to_num ds + 1)) stack).map
            (fun r => ds ++ rest.take (bytes_to_num ds + 1) ++ r)
        else none
    else if b = iC then
      match splitUntil eC (b :: t) with
      | none => none
      | some (ds, rest) =>
        match rest with
        | [] => none
        | e :: rest2 => (scanFuel fuel rest2 stack).map (fun r => ds ++ e :: r)
    else if b = lC ∨ b = dC then
      (scanFuel fuel t (stack + 1)).map (fun r => b :: r)
    else none

/-- Rust `get_info_hash` (decode_torrent.rs:44): locate the first occurrence of
`4:infod`, token-scan the dictionary body from just after it, and hash
`'d' :: body ++ ['e']` with SHA-1. `none` models the panics of both loops. -/
def get_info_hash (input : List Nat) : Option (List Nat) :=
  match findLit input with
  | none => none
  | some rest =>
    match scanFuel rest.length rest 0 with
    | none => none
    | some body => some (sha1 (dC :: (body ++ [eC])))

/-! ## Bencode values and their encodings

Reference model for "valid metainfo bytes": an abstract syntax of bencode
values with the standard encoder. The claims about `get_info_hash` quantify
over encodings of such values. -/

/-- Helper for `natDigits`; the fuel dominates the digit count. -/
def natDigitsGo : Nat → Nat → List Nat → List Nat
  | 0, _, acc => acc
  | fuel + 1, n, acc =>
    if n < 10 then (48 + n) :: acc
    else natDigitsGo fuel (n / 10) ((48 + n % 10) :: acc)

/-- The ASCII decimal digits of `n`, most significant first. -/
def natDigits (n : Nat) : List Nat := natDigitsGo (n + 1) n []

mutual

/-- Bencode values: byte strings, integers (kept as their literal digit
bytes, e.g. `[45, 51]` for `i-3e`), lists and dictionaries. -/
inductive Bval where
  | str (s : List Nat) : Bval
  | int (ds : List Nat) : Bval
  | lst (vs : Blist) : Bval
  | dct (kvs : Bdict) : Bval

/-- A list of bencode values. -/
inductive Blist where
  | lnil : Blist
  | lcons (v : Bval) (t : Blist) : Blist

/-- A bencode dictionary: key/value pairs in order. -/
inductive Bdict where
  | dnil : Bdict
  | dcons (k : List Nat) (v : Bval) (t : Bdict) : Bdict

end

/-- Encoding of a byte string: `<decimal length>:<bytes>`. -/
def encStr (s : List Nat) : List Nat := natDigits s.length ++ colonC :: s

mutual

/-- Bencode encoder for values. -/
def encV : Bval → List Nat
  | .str s => encStr s
  | .int ds => iC :: (ds ++ [eC])
  | .lst vs => lC :: (encL vs ++ [eC])
  | .dct kvs => dC :: (encD kvs ++ [eC])

/-- Bencode encoder for value lists (the body of `l...e`). -/
def encL : Blist → List Nat
  | .lnil => []
  | .lcons v t => encV v ++ encL t

/-- Bencode encoder for dictionaries (the body of `d...e`). -/
def encD : Bdict → List Nat
  | .dnil => []
  | .dcons k v t => encStr k ++ (encV v ++ encD t)

end

mutual

/-- Well-formedness: bytes below 256, and integer bodies are nonempty runs
of digits possibly with `'-'` signs — in particular free of `'e'`, so the
encoding is unambiguous. -/
def wfV : Bval → Bool
  | .str s => s.all (· < 256)
  | .int ds => !ds.isEmpty && ds.all (fun c => isDigitB c || c = 45)
  | .lst vs => wfL vs
  | .dct kvs => wfD kvs

/-- Well-formedness of value lists. -/
def wfL : Blist → Bool
  | .lnil => true
  | .lcons v t => wfV v && wfL t

/-- Well-formedness of dictionaries. -/
def wfD : Bdict → Bool
  | .dnil => true
  | .dcons k v t => k.all (· < 256) && (wfV v && wfD t)

end

/-- First-match key lookup in a dictionary. -/
def dictLookup (key : List Nat) : Bdict → Option Bval
  | .dnil => none
  | .dcons k v t => if k = key then some v else dictLookup key t

/-- Strict lexicographic byte order on raw key strings. -/
def byteLexLt : List Nat → List Nat → Bool
  | [], [] => false
  | [], _ :: _ => true
  | _ :: _, [] => false
  | x :: xs, y :: ys => x < y || (x = y && byteLexLt xs ys)

/-- Keys strictly sorted, as bencode requires of encoders. -/
def keysSortedD : Bdict → Bool
  | .dnil => true
  | .dcons _ _ .dnil => true
  | .dcons k1 _ (.dcons k2 v2 t) =>
    byteLexLt k1 k2 && keysSortedD (.dcons k2 v2 t)

/-- The key `b"announce"`. -/
def announceKey : List Nat := [97, 110, 110, 111, 117, 110, 99, 101]

/-- The key `b"info"`. -/
def infoKeyBytes : List Nat := [105, 110, 102, 111]

/-- The key `b"name"`. -/
def nameKey : List Nat := [110, 97, 109, 101]

/-- The key `b"length"`. -/
def lengthKey : List Nat := [108, 101, 110, 103, 116, 104]

/-- The key `b"piece length"`. -/
def pieceLengthKey : List Nat :=
  [112, 105, 101, 99, 101, 32, 108, 101, 110, 103, 116, 104]

/-- The key `b"pieces"`. -/
def piecesKey : List Nat := [112, 105, 101, 99, 101, 115]

/-- A single-file metainfo dictionary as `MetaInfo::from_bencode` /
`Info::from_bencode` accept it: well-formed, sorted keys, an `announce`
string, and an `info` dictionary (sorted) with `length` and `piece length`
integers, a `name` string, and a `pieces` string of 20-byte hashes. -/
def validSingleFileMetaInfo (kvs : Bdict) : Bool :=
  wfD kvs && keysSortedD kvs &&
  (match dictLookup announceKey kvs with
   | some (.str _) => true
   | _ => false) &&
  (match dictLookup infoKeyBytes kvs with
   | some (.dct ivs) =>
     keysSortedD ivs &&
     (match dictLookup lengthKey ivs with
      | some (.int _) => true
      | _ => false) &&
     (match dictLookup nameKey ivs with
      | some (.str _) => true
      | _ => false) &&
     (match dictLookup pieceLengthKey ivs with
      | some (.int _) => true
      | _ => false) &&
     (match dictLookup piecesKey ivs with
      | some (.str s) => s.length % 20 == 0
      | _ => false)
   | _ => false)

/-- Concatenation of dictionaries. -/
def dictConcat : Bdict → Bdict → Bdict
  | .dnil, b => b
  | .dcons k v t, b => .dcons k v (dictConcat t b)

/-- The outer dictionary with the `info` entry exhibited: keys/values before
it, the `info` entry itself, keys/values after it. -/
def metaB (kvs1 kvs2 ivs : Bdict) : Bdict :=
  dictConcat kvs1 (.dcons infoKeyBytes (.dct ivs) kvs2)

/-- The claimed precondition of `get_info_hash`: the input contains the
literal `4:infod` — at its first occurrence — followed by a well-formed,
bracket-balanced bencode dictionary body terminated by its matching `'e'`
(anything may follow). -/
def scanP (B : List Nat) : Prop :=
  ∃ (pre : List Nat) (kvs : Bdict) (suffix : List Nat),
    B = pre ++ infoLit ++ (encD kvs ++ eC :: suffix) ∧
    wfD kvs = true ∧
    ∀ i, i < pre.length → (B.drop i).take 7 ≠ infoLit

/-! ## File store (`src/file.rs`)

The io_uring handle (`ring: Arc<Mutex<Rio>>`) carries no data relevant to any
claim and is omitted from the embedded records; the backing `File` is modelled
by its byte contents. -/

/-- Rust `Piece` (file.rs:19). -/
structure Piece where
  piece_size : Nat
  bytes : List Nat
  deriving DecidableEq, Repr

/-- Rust `Piece::new` (file.rs:34): a zeroed buffer of `actual_size` bytes. -/
def Piece.new (piece_size actual_size : Nat) : Piece where
  piece_size := piece_size
  bytes := List.replicate actual_size 0

/-- Rust `Piece::read` (file.rs:42): read `bytes.len()` bytes from the file at
`offset`; `assert!(bytes_read == self.bytes.len())` panics on a short read,
i.e. whenever the requested range is not contained in the file. -/
def Piece.read (p : Piece) (file : List Nat) (offset : Nat) : Option Piece :=
  if offset + p.bytes.length ≤ file.length then
    some { p with bytes := (file.drop offset).take p.bytes.length }
  else
    none

/-- Rust `FileEntity` (file.rs:26). -/
structure FileEntity where
  file : List Nat
  piece_size : Nat
  pieces : List (Option Piece)
  deriving DecidableEq, Repr

/-- Rust `FileEntity::load_piece` (file.rs:110): no-op when the slot is occupied;
otherwise allocate `Piece::new(self.piece_size, self.piece_size)` — the
source's `TODO: Handle the case of the last piece` sits exactly here: the
actual size `min(P, S - i*P)` is not used — read at `index * piece_size`
and install. `self.pieces[index]` panics when the index is out of bounds. -/
def FileEntity.load_piece (fe : FileEntity) (index : Nat) : Option FileEntity := do
  let slot ← fe.pieces[index]?
  match slot with
  | some _ => some fe
  | none => do
    let piece := Piece.new fe.piece_size fe.piece_size
    let piece ← piece.read fe.file (index * fe.piece_size)
    some { fe with pieces := fe.pieces.set index (some piece) }

/-- Rust `FileEntity::write_sub_piece` (file.rs:132): load the piece when it is
absent, then patch `p.bytes[offset..offset+buf.len()]` from `buf` through the
`iter_mut().zip(..)` loop; the slice panics when the range exceeds the
buffer. -/
def FileEntity.write_sub_piece (fe : FileEntity) (index offset : Nat)
    (buf : List Nat) : Option FileEntity := do
  let slot ← fe.pieces[index]?
  let fe' ← if slot.isNone then fe.load_piece index else some fe
  let slot' ← fe'.pieces[index]?
  let p ← slot'
  if offset + buf.length ≤ p.bytes.length then
    some { fe' with
      pieces := fe'.pieces.set index
        (some { p with bytes := writeSeq p.bytes offset buf }) }
  else
    none

/-- The error kinds of `std::io::ErrorKind` that the sources compare against
or construct, plus the spec's `ProtocolViolation` kind (§7), which no code in
the repository ever constructs. -/
inductive ErrKind where
  | alreadyExists
  | notFound
  | permissionDenied
  | protocolViolation
  | other (code : Nat)
  deriving DecidableEq, Repr

/-- Result of `fs::metadata`. -/
structure Metadata where
  is_file : Bool
  size : Nat
  deriving DecidableEq, Repr

/-- The options set on an `fs::OpenOptions` builder before `open`. -/
structure OpenReq where
  read : Bool
  write : Bool
  create_new : Bool
  deriving DecidableEq, Repr

/-- Rust `OpenOptions::new().read(true).write(true)` (file.rs:90). -/
def openRWReq : OpenReq where
  read := true
  write := true
  create_new := false

/-- Rust `OpenOptions::new().read(true).write(true).create_new(true)`
(file.rs:156). -/
def openCreateReq : OpenReq where
  read := true
  write := true
  create_new := true

/-- The filesystem environment `FileEntity::new` runs against: the outcome of
`fs::metadata` on the path, and for each open request the outcome of `open`,
giving the opened file's byte contents. -/
structure FsEnv where
  metadata : Except ErrKind Metadata
  openFile : OpenReq → Except ErrKind (List Nat)

/-- Rust `fallocate` (file.rs:155): create the file exclusively, then reserve
`size` bytes with `libc::fallocate`, whose result is ignored (source TODO);
reads of never-written regions of the reserved range yield zero bytes. -/
def fallocate (env : FsEnv) (size : Nat) : Except ErrKind (List Nat) :=
  match env.openFile openCreateReq with
  | .error e => .error e
  | .ok _ => .ok (List.replicate size 0)

/-- Rust `FileEntity::new` (file.rs:79). The outer `Option` models panics: the
piece-count computation `size % piece_size` panics when `piece_size = 0`. -/
def FileEntity.new (env : FsEnv) (piece_size size : Nat) :
    Option (Except ErrKind FileEntity) :=
  let fileRes : Except ErrKind (List Nat) :=
    match env.metadata with
    | .ok m =>
      if m.is_file = true ∧ m.size ≠ size then .error .alreadyExists
      else env.openFile openRWReq
    | .error e => if e = .notFound then fallocate env size else .error e
  match fileRes with
  | .error e => some (.error e)
  | .ok file =>
    if piece_size = 0 then none
    else
      let npieces :=
        if size % piece_size = 0 then size / piece_size
        else size / piece_size + 1
      some (.ok { file := file, piece_size := piece_size,
                  pieces := List.replicate npieces none })

/-! ## UDP tracker client (`src/tracker.rs`)

The socket I/O is environment; the embedded functions take the received
response bytes as input and model the decoding and checking that the source
performs on them. The C-layout `ConnectOut` record — `action: u32`,
`tid: u32`, `cid: u64` — is filled by `mem::transmute` from the 16 received
bytes, so each field is read in native byte order from its offset
(0, 4, 8). -/

/-- Outcome of `UdpConnection::connect` on a received response: either the
session caches `(cid, tid)`, or the code panics (a failed `assert!`), or it
returns an error value — the source never builds the last one. -/
inductive ConnResult where
  | ok (cid : Nat) (tid : Nat)
  | panicked
  | err (e : ErrKind)
  deriving DecidableEq, Repr

/-- Rust `UdpConnection::connect` (tracker.rs:93) from the point where the
16-byte response `data_out` is in hand, given the random `tid` that was sent:
`transmute` to `ConnectOut` (native-order fields at offsets 0, 4, 8), then
`assert!(cout.action == 0)`, `assert!(cout.tid == tid)`,
`assert!(cout.cid != 0)` — each a panic on violation (the source's
`TODO: fail gracefully` marks them) — then cache `self.tid = tid;
self.cid = cout.cid`. -/
def connect (le : Bool) (tid : Nat) (data_out : List Nat) : ConnResult :=
  let action := neBytesToNat le (data_out.take 4)
  let rtid := neBytesToNat le ((data_out.drop 4).take 4)
  let rcid := neBytesToNat le ((data_out.drop 8).take 8)
  if action ≠ 0 then .panicked
  else if rtid ≠ tid then .panicked
  else if rcid = 0 then .panicked
  else .ok rcid tid

/-- Rust `AnnounceOut` (tracker.rs:56); the peer list entries are
`(Ipv4Addr, u16)` pairs, the address kept as its four octets. -/
structure AnnounceOut where
  action : Nat
  tid : Nat
  interval : Nat
  leechers : Nat
  seeders : Nat
  peers : Option (List ((Nat × Nat × Nat × Nat) × Nat))
  deriving DecidableEq, Repr

/-- The decoding part of `UdpConnection::announce` (tracker.rs:150) applied
to the received buffer `buf` (allocated as `20 + 6 * num_peers` bytes):
`action`, `interval`, `leechers`, `seeders` via `u32::from_be_bytes`, `tid`
via `u32::from_ne_bytes`, and for `num_peers = n > 0` the records at
`idx = 20 + 6x`: four raw octets and `u16::from_be_bytes(buf[24+6x..26+6x])`,
filtered by `!= (Ipv4Addr::new(0,0,0,0), 0)`. -/
def announceDecode (le : Bool) (num_peers : Nat) (buf : List Nat) :
    AnnounceOut where
  action := beBytesToNat (buf.take 4)
  tid := neBytesToNat le ((buf.drop 4).take 4)
  interval := beBytesToNat ((buf.drop 8).take 4)
  leechers := beBytesToNat ((buf.drop 12).take 4)
  seeders := beBytesToNat ((buf.drop 16).take 4)
  peers :=
    match num_peers with
    | 0 => none
    | n =>
      some (((List.range n).map (fun x =>
        ((buf.getD (20 + 6 * x) 0, buf.getD (20 + 6 * x + 1) 0,
          buf.getD (20 + 6 * x + 2) 0, buf.getD (20 + 6 * x + 3) 0),
          beBytesToNat ((buf.drop (24 + x * 6)).take 2)))).filter
        (fun ipport => ipport ≠ ((0, 0, 0, 0), 0)))

/-- Rust `AnnounceOut::get_peers` flattened to a list (`None` ↦ no list, read as
empty). -/
def AnnounceOut.peersList (a : AnnounceOut) :
    List ((Nat × Nat × Nat × Nat) × Nat) :=
  a.peers.getD []

/-- The spec-side reading of one compact peer record: the `x`-th 6-byte
record after the fixed 20-byte header, its first four bytes the IPv4 octets
and its last two bytes the port in network byte order. -/
def specPeerRecord (buf : List Nat) (x : Nat) :
    (Nat × Nat × Nat × Nat) × Nat :=
  let r := (buf.drop (20 + 6 * x)).take 6
  ((r.getD 0 0, r.getD 1 0, r.getD 2 0, r.getD 3 0),
    beBytesToNat ((r.drop 4).take 2))

/-! ## Peer session bitfield handler (`src/peer.rs`)

The handler mutates `peer.have` in place; the embedding threads the vector
explicitly. Both loops are modelled with fuel `len` which dominates their
iteration counts (`⌈len/8⌉` and `≤ 8`). -/

/-- The first loop of `bitfield` (peer.rs:128): while `idx + 8 < len`, read
byte `idx / 8` and write its eight bits MSB-first into `have[idx..idx+8]`,
then `idx += 8`. Returns the updated vector and the final `idx`. -/
def bfMain (fuel : Nat) (buffer : List Nat) (len idx : Nat)
    (hv : List Bool) : List Bool × Nat :=
  match fuel with
  | 0 => (hv, idx)
  | fuel + 1 =>
    if idx + 8 < len then
      let x := buffer.getD (idx / 8) 0
      bfMain fuel buffer len (idx + 8)
        ((((((((hv.set idx (testBit x 7)).set (idx + 1) (testBit x 6)).set
          (idx + 2) (testBit x 5)).set (idx + 3) (testBit x 4)).set
          (idx + 4) (testBit x 3)).set (idx + 5) (testBit x 2)).set
          (idx + 6) (testBit x 1)).set (idx + 7) (testBit x 0))
    else (hv, idx)

/-- The second loop of `bitfield` (peer.rs:148): while `idx < len`, write bit
`shift` (starting at 7, decreasing) of `buffer[buffer.len() - 1]` — the
*last* byte of the bitfield — into `have[idx]`. -/
def bfTail (fuel lastByte len idx shift : Nat) (hv : List Bool) : List Bool :=
  match fuel with
  | 0 => hv
  | fuel + 1 =>
    if idx < len then
      bfTail fuel lastByte len (idx + 1) (shift - 1)
        (hv.set idx (testBit lastByte shift))
    else hv

/-- Rust `bitfield` (peer.rs:123): `assert!(have.len() <= buffer.len() * 8)`
(panic = `none` on an undersize bitfield), then the full-byte loop followed
by the tail loop on the last buffer byte. -/
def bitfield (hv : List Bool) (buffer : List Nat) : Option (List Bool) :=
  let len := hv.length
  if len ≤ 8 * buffer.length then
    let m := bfMain len buffer len 0 hv
    some (bfTail len (buffer.getD (buffer.length - 1) 0) len m.2 7 m.1)
  else
    none

/-! ## Concrete instances used by witnesses and counterexamples -/

/-- An info dictionary: `length = 1`, `name = "a"`, `piece length = 1`,
`pieces` a single 20-byte hash (`"A" * 20`); keys sorted. -/
def ivs0 : Bdict :=
  .dcons lengthKey (.int [49])
    (.dcons nameKey (.str [97])
      (.dcons pieceLengthKey (.int [49])
        (.dcons piecesKey (.str (List.replicate 20 65)) .dnil)))

/-- A valid single-file metainfo whose `announce` string is the seven bytes
`"4:infod"` — so the literal the scanner looks for occurs inside the
announce *value*, before the real `info` key. -/
def kvs0 : Bdict :=
  .dcons announceKey (.str infoLit) (.dcons infoKeyBytes (.dct ivs0) .dnil)

/-- The same metainfo with the harmless announce string `"x"`. -/
def kvs1good : Bdict := .dcons announceKey (.str [120]) .dnil

/-- The bytes of `b"4:infod" ++ b"iaee"`: the literal followed by a token run the scanner
accepts (`i`-run `iae`, then the closing `e`) that is not a well-formed
bencode dictionary body. -/
def scanLenient0 : List Nat := infoLit ++ [105, 97, 101, 101]

/-- A 16-byte connect response whose action field is nonzero. -/
def connRespBad : List Nat :=
  1 :: List.replicate 15 0

/-- A 16-byte connect response echoing transaction id 7 (little-endian
native order) with action 0 and a nonzero connection id. -/
def connRespGood : List Nat :=
  [0, 0, 0, 0, 7, 0, 0, 0, 9, 0, 0, 0, 0, 0, 0, 0]

/-- A 20-byte announce response header whose transaction-id field holds the
bytes `[0,0,0,1]`: read big-endian it is 1, read little-endian it is
2^24. -/
def annRespAsym : List Nat :=
  [0, 0, 0, 0, 0, 0, 0, 1, 0, 0, 0, 0, 0, 0, 0, 0, 0, 0, 0, 0]

/-- The crate's default handshake (`pstr_len = 19`,
`pstr = "BitTorrent protocol"`, zero reserved bytes, zero info-hash, peer id
`-RS0001-RANDOM_CHARA`). -/
def hsDefault : Handshake where
  pstr_len := 19
  protocol := [66, 105, 116, 84, 111, 114, 114, 101, 110, 116, 32, 112, 114,
    111, 116, 111, 99, 111, 108]
  reserved := List.replicate 8 0
  info_hash := List.replicate 20 0
  peer_id := [45, 82, 83, 48, 48, 48, 49, 45, 82, 65, 78, 68, 79, 77, 95, 67,
    72, 65, 82, 65]

/-- A file store over a 300-byte file with 256-byte pieces: two pieces, the
last of actual size 44, neither resident. -/
def fe300 : FileEntity where
  file := List.replicate 300 1
  piece_size := 256
  pieces := [none, none]

/-- A small file store: 4-byte file, 2-byte pieces, first piece resident with
bytes `[9, 9]`, second absent. -/
def feSmall : FileEntity where
  file := [1, 2, 3, 4]
  piece_size := 2
  pieces := [some { piece_size := 2, bytes := [9, 9] }, none]

/-- An environment whose path is an existing regular file of size 0 and where
every open succeeds with empty contents. -/
def envExisting0 : FsEnv where
  metadata := .ok { is_file := true, size := 0 }
  openFile := fun _ => .ok []

/-- An environment whose path is an existing regular file of size 5 with
contents `[1,2,3,4,5]`. -/
def envExisting5 : FsEnv where
  metadata := .ok { is_file := true, size := 5 }
  openFile := fun _ => .ok [1, 2, 3, 4, 5]

/-- An environment whose path does not exist and where creation succeeds. -/
def envAbsent : FsEnv where
  metadata := .error .notFound
  openFile := fun _ => .ok []

/-- An environment whose metadata call fails with `PermissionDenied`. -/
def envDenied : FsEnv where
  metadata := .error .permissionDenied
  openFile := fun _ => .error .permissionDenied

/-! ## Theorems -/

theorem writeSeq_eq (l : List Nat) (off : Nat) (ys : List Nat)
    (h : off + ys.length ≤ l.length) :
    writeSeq l off ys = l.take off ++ ys ++ l.drop (off + ys.length) := by
  induction ys generalizing l off with
  | nil =>
    simp [writeSeq]
  | cons y ys ih =>
    simp only [writeSeq]
    rw [ih]
    · have hofflt : off < l.length := by simp at h; omega
      have h1 : (l.set off y).take (off + 1) = l.take off ++ [y] := by
        have hs : (l.set off y).take (off + 1) =
            (l.set off y).take off ++ [(l.set off y).get ⟨off, by simpa using hofflt⟩] := by
          rw [List.take_succ, List.getElem?_eq_getElem (by simpa using hofflt)]
          simp [List.get_eq_getElem]
        rw [hs]
        congr 1
        · rw [List.set_take, List.set_eq_of_length_le (by simp)]
        · simp [List.get_eq_getElem, List.getElem_set_self]
      have h2 : (l.set off y).drop (off + 1 + ys.length) = l.drop (off + 1 + ys.length) := by
        rw [List.drop_set]
        simp only [if_pos (by omega : off < off + 1 + ys.length)]
      rw [h1, h2]
      simp only [List.append_assoc, List.singleton_append, List.length_cons]
      have hn : off + 1 + ys.length = off + (ys.length + 1) := by omega
      rw [hn]
    · simp at h ⊢
      omega

theorem writeSeq_length (l : List Nat) (off : Nat) (ys : List Nat) :
    (writeSeq l off ys).length = l.length := by
  induction ys generalizing l off with
  | nil => simp [writeSeq]
  | cons y ys ih => simp [writeSeq, ih]

/-- C8: decoding the encoding restores every field. -/
theorem handshake_new_to_bytes (h : Handshake) (hwf : h.wf) :
    Handshake.new h.to_bytes = h := by
  obtain ⟨_, hp, hr, hi, hid⟩ := hwf
  cases h with
  | mk pstr_len protocol reserved info_hash peer_id =>
    simp only [Handshake.wf] at hp hr hi hid
    simp [Handshake.new, Handshake.to_bytes, List.drop_append_eq_append_drop,
      List.take_append_eq_append_take, hp, hr, hi, hid,
      List.drop_eq_nil_of_le, List.drop_eq_nil_iff]

theorem handshake_new_to_bytes_witness :
    hsDefault.wf ∧ Handshake.new hsDefault.to_bytes = hsDefault :=
  ⟨by decide, handshake_new_to_bytes hsDefault (by decide)⟩

theorem chunksTwo_flatMap (f : Nat → Nat) (g : Nat → Nat) (h : List Nat) :
    chunksTwo (h.flatMap fun c => [f c, g c]) = h.map fun c => [f c, g c] := by
  induction h with
  | nil => simp [chunksTwo]
  | cons c t ih => simpa [chunksTwo] using ih

set_option maxRecDepth 4096 in
theorem fromStrRadix16_hexPair (b : Nat) (hb : b < 256) :
    fromStrRadix16 [hexChar (b / 16), hexChar (b % 16)] = some b := by
  revert hb
  revert b
  decide

theorem mapM_hexPairs (h : List Nat) (hb : ∀ b ∈ h, b < 256) :
    (h.map fun c => [hexChar (c / 16), hexChar (c % 16)]).mapM fromStrRadix16 =
      some h := by
  induction h with
  | nil => rfl
  | cons c t ih =>
    have hc : c < 256 := hb c (by simp)
    simp only [List.map_cons, List.mapM_cons, fromStrRadix16_hexPair c hc,
      ih (fun b hbt => hb b (by simp [hbt]))]
    rfl

/-- C9: the tracker-side hex decoder is a left inverse of the metainfo-side
hex encoder on 20-byte hashes. -/
theorem hash_to_bytes_bytes_to_hash (h : List Nat) (hlen : h.length = 20)
    (hb : ∀ b ∈ h, b < 256) :
    hash_to_bytes (bytes_to_hash h) = some h := by
  unfold hash_to_bytes bytes_to_hash
  rw [chunksTwo_flatMap, mapM_hexPairs h hb]
  simp only [Option.bind_eq_bind, Option.some_bind, hlen]
  rw [if_pos (by omega)]
  rw [writeSeq_eq _ _ _ (by simp [hlen])]
  simp [hlen]

theorem hash_to_bytes_bytes_to_hash_witness :
    (List.replicate 20 171).length = 20 ∧
      hash_to_bytes (bytes_to_hash (List.replicate 20 171)) =
        some (List.replicate 20 171) :=
  ⟨by decide, hash_to_bytes_bytes_to_hash _ (by decide) (by decide)⟩

/-- C6: `write_sub_piece` patches exactly `[off, off+len)` of the addressed
piece and nothing else. The record update `{ fe with pieces := fe.pieces.set
index .. }` makes the frame explicit: the backing file bytes and every other
piece slot are untouched, and within the piece the bytes outside the patched
range are carried over by `take`/`drop`. The second conjunct is the
non-resident case: the piece is first loaded from the file (full
`piece_size` buffer, as `load_piece` does) and then the same patch applies. -/
theorem write_sub_piece_spec :
    (∀ (fe : FileEntity) (i off : Nat) (buf : List Nat) (p : Piece),
      fe.pieces[i]? = some (some p) →
      off + buf.length ≤ p.bytes.length →
      fe.write_sub_piece i off buf =
        some { fe with pieces := fe.pieces.set i (some { p with bytes := p.bytes.take off ++ buf ++ p.bytes.drop (off + buf.length) }) }) ∧
    (∀ (fe : FileEntity) (i off : Nat) (buf : List Nat),
      fe.pieces[i]? = some none →
      i * fe.piece_size + fe.piece_size ≤ fe.file.length →
      off + buf.length ≤ fe.piece_size →
      fe.write_sub_piece i off buf =
        some { fe with pieces := fe.pieces.set i (some { piece_size := fe.piece_size, bytes := ((fe.file.drop (i * fe.piece_size)).take fe.piece_size).take off ++ buf ++ ((fe.file.drop (i * fe.piece_size)).take fe.piece_size).drop (off + buf.length) }) }) := by
  constructor
  · intro fe i off buf p hp hlen
    unfold FileEntity.write_sub_piece
    simp [hp, Option.bind, writeSeq_eq _ _ _ hlen, hlen]
  · intro fe i off buf hnone hfile hlen
    have hbuflen : (List.replicate fe.piece_size (0 : Nat)).length = fe.piece_size := by
      simp
    have hloadlen :
        (((fe.file.drop (i * fe.piece_size)).take fe.piece_size)).length =
          fe.piece_size := by
      rw [List.length_take, List.length_drop]
      exact Nat.min_eq_left (by omega)
    have hilt : i < fe.pieces.length := by
      by_contra hge
      rw [List.getElem?_eq_none (by omega)] at hnone
      cases hnone
    unfold FileEntity.write_sub_piece FileEntity.load_piece Piece.read Piece.new
    simp only [hnone, Option.bind_eq_bind, Option.some_bind, Option.isNone_some,
      List.length_replicate]
    rw [if_pos hfile]
    simp only [Option.isNone_none, if_pos rfl, Option.some_bind]
    have hcond : off + buf.length ≤
        (List.take fe.piece_size (List.drop (i * fe.piece_size) fe.file)).length := by
      rw [hloadlen]; exact hlen
    simp [List.getElem?_set, hilt, hcond, writeSeq_eq _ _ _ hcond, List.set_set]
    exact ⟨hlen, by omega⟩

theorem write_sub_piece_spec_witness :
    (feSmall.pieces[0]? = some (some { piece_size := 2, bytes := [9, 9] }) ∧
      feSmall.write_sub_piece 0 1 [5] =
        some { feSmall with
          pieces := feSmall.pieces.set 0 (some { piece_size := 2, bytes := [9, 5] }) }) ∧
    (feSmall.pieces[1]? = some none ∧
      feSmall.write_sub_piece 1 0 [7] =
        some { feSmall with
          pieces := feSmall.pieces.set 1 (some { piece_size := 2, bytes := [7, 4] }) }) := by
  refine ⟨⟨by decide, ?_⟩, ⟨by decide, ?_⟩⟩
  · have h := write_sub_piece_spec.1 feSmall 0 1 [5]
      { piece_size := 2, bytes := [9, 9] } (by decide) (by decide)
    simpa using h
  · have h := write_sub_piece_spec.2 feSmall 1 0 [7] (by decide) (by decide)
      (by decide)
    simpa using h

/-- C3 (code bug): on the last piece of a file whose size is not a multiple
of the piece size, `load_piece` allocates a full `piece_size` buffer (the
source carries `TODO: Handle the case of the last piece` at file.rs:115) and
the subsequent read past end-of-file trips `assert!(bytes_read ==
self.bytes.len())`, i.e. panics — instead of allocating the actual size
`min(P, S - i*P)` (here 44) and succeeding as the spec requires. -/
theorem load_piece_last_piece_panics :
    fe300.load_piece 1 = none ∧
      min fe300.piece_size (fe300.file.length - 1 * fe300.piece_size) = 44 := by
  constructor
  · decide
  · decide

/-- C7 (amended): behaviour of `FileEntity::new` over the filesystem
environment, split by the metadata outcome. The amendment relative to the
claim: the success cases additionally need `piece_size ≠ 0`, because the
piece-count computation `size % piece_size` panics on a zero piece size (see
`fileentity_new_zero_piece_size_panics`). Conjuncts: (1) existing regular
file of mismatched size fails with `AlreadyExists` before any open; (2)
existing regular file of matching size is opened with the read+write options
(`openRWReq`) and construction succeeds around its contents; (3) an absent
path is created (`openCreateReq`) and construction succeeds with `size`
reserved zero bytes; (4) any other metadata error is propagated. -/
theorem fileentity_new_spec :
    (∀ (env : FsEnv) (P S : Nat) (m : Metadata),
      env.metadata = .ok m → m.is_file = true → m.size ≠ S →
      FileEntity.new env P S = some (.error .alreadyExists)) ∧
    (∀ (env : FsEnv) (P S : Nat) (m : Metadata) (f : List Nat),
      env.metadata = .ok m → m.is_file = true → m.size = S →
      env.openFile openRWReq = .ok f → P ≠ 0 →
      FileEntity.new env P S = some (.ok
        { file := f, piece_size := P,
          pieces := List.replicate
            (if S % P = 0 then S / P else S / P + 1) none })) ∧
    (∀ (env : FsEnv) (P S : Nat) (f : List Nat),
      env.metadata = .error .notFound →
      env.openFile openCreateReq = .ok f → P ≠ 0 →
      FileEntity.new env P S = some (.ok
        { file := List.replicate S 0, piece_size := P,
          pieces := List.replicate
            (if S % P = 0 then S / P else S / P + 1) none })) ∧
    (∀ (env : FsEnv) (P S : Nat) (e : ErrKind),
      env.metadata = .error e → e ≠ .notFound →
      FileEntity.new env P S = some (.error e)) := by
  refine ⟨?_, ?_, ?_, ?_⟩
  · intro env P S m hm hf hs
    simp [FileEntity.new, hm, hf, hs]
  · intro env P S m f hm hf hs hopen hP
    simp [FileEntity.new, hm, hf, hs, hopen, hP]
  · intro env P S f hm hopen hP
    simp [FileEntity.new, fallocate, hm, hopen, hP]
  · intro env P S e hm he
    simp [FileEntity.new, hm, he]

/-- C7 counterexample to the claim as stated: with piece size `P = 0` and an
existing regular file whose size equals `S = 0`, the constructor does not
succeed — `size % piece_size` panics (division by zero) — refuting the
claim's unconditional "if the existing regular file's size equals S it opens
the file read+write and succeeds" for every `P`. -/
theorem fileentity_new_zero_piece_size_panics :
    envExisting0.metadata = .ok { is_file := true, size := 0 } ∧
      FileEntity.new envExisting0 0 0 = none := by
  exact ⟨rfl, rfl⟩

theorem fileentity_new_spec_witness :
    (FileEntity.new envExisting5 2 4 = some (.error .alreadyExists)) ∧
    (FileEntity.new envExisting5 2 5 = some (.ok
      { file := [1, 2, 3, 4, 5], piece_size := 2,
        pieces := List.replicate 3 none })) ∧
    (FileEntity.new envAbsent 2 5 = some (.ok
      { file := List.replicate 5 0, piece_size := 2,
        pieces := List.replicate 3 none })) ∧
    (FileEntity.new envDenied 2 5 = some (.error .permissionDenied)) := by
  refine ⟨?_, ?_, ?_, ?_⟩
  · exact fileentity_new_spec.1 envExisting5 2 4
      { is_file := true, size := 5 } rfl rfl (by decide)
  · have h := fileentity_new_spec.2.1 envExisting5 2 5
      { is_file := true, size := 5 } [1, 2, 3, 4, 5] rfl rfl rfl rfl
      (by decide)
    simpa using h
  · have h := fileentity_new_spec.2.2.1 envAbsent 2 5 [] rfl rfl (by decide)
    simpa using h
  · exact fileentity_new_spec.2.2.2 envDenied 2 5 .permissionDenied rfl
      (by decide)

/-- C4 (amended): on a response whose action field (as the code reads it, in
native byte order) is nonzero or whose transaction-id field differs from the
sent one, `connect` panics on an `assert!` — it does not return a
`ProtocolViolation` error value, which the source never constructs (see
`connect_mismatch_panics_not_error`). Conversely a successful return only
happens on a matching response, and it caches exactly the response's
connection id and the sent transaction id; a fully matching response with a
nonzero connection id does succeed. -/
theorem connect_spec :
    (∀ (le : Bool) (tid : Nat) (out : List Nat),
      neBytesToNat le (out.take 4) ≠ 0 ∨
        neBytesToNat le ((out.drop 4).take 4) ≠ tid →
      connect le tid out = .panicked) ∧
    (∀ (le : Bool) (tid : Nat) (out : List Nat) (cid' tid' : Nat),
      connect le tid out = .ok cid' tid' →
      neBytesToNat le (out.take 4) = 0 ∧
        neBytesToNat le ((out.drop 4).take 4) = tid ∧
        cid' = neBytesToNat le ((out.drop 8).take 8) ∧ tid' = tid) ∧
    (∀ (le : Bool) (tid : Nat) (out : List Nat),
      neBytesToNat le (out.take 4) = 0 →
      neBytesToNat le ((out.drop 4).take 4) = tid →
      neBytesToNat le ((out.drop 8).take 8) ≠ 0 →
      connect le tid out = .ok (neBytesToNat le ((out.drop 8).take 8)) tid) := by
  refine ⟨?_, ?_, ?_⟩
  · intro le tid out hmis
    unfold connect
    rcases hmis with hact | htid
    · rw [if_pos hact]
    · by_cases hact : neBytesToNat le (out.take 4) ≠ 0
      · rw [if_pos hact]
      · rw [if_neg hact, if_pos htid]
  · intro le tid out cid' tid' hok
    unfold connect at hok
    by_cases hact : neBytesToNat le (out.take 4) ≠ 0
    · rw [if_pos hact] at hok; cases hok
    · rw [if_neg hact] at hok
      push_neg at hact
      by_cases htid : neBytesToNat le ((out.drop 4).take 4) ≠ tid
      · rw [if_pos htid] at hok; cases hok
      · rw [if_neg htid] at hok
        push_neg at htid
        by_cases hcid : neBytesToNat le ((out.drop 8).take 8) = 0
        · rw [if_pos hcid] at hok; cases hok
        · rw [if_neg hcid] at hok
          cases hok
          exact ⟨hact, htid, rfl, rfl⟩
  · intro le tid out hact htid hcid
    unfold connect
    rw [if_neg (by simpa using hact), if_neg (by simpa using htid), if_neg hcid]

/-- C4 counterexample to the claim as stated: on a response with a nonzero
action field, `connect` panics (`assert!(cout.action == 0)`), it does not
return a `ProtocolViolation` error. -/
theorem connect_mismatch_panics_not_error :
    neBytesToNat true (connRespBad.take 4) ≠ 0 ∧
      connect true 0 connRespBad = ConnResult.panicked ∧
      connect true 0 connRespBad ≠ ConnResult.err ErrKind.protocolViolation := by
  refine ⟨by decide, by decide, by decide⟩

theorem connect_spec_witness :
    connect true 0 connRespBad = ConnResult.panicked ∧
      (neBytesToNat true (connRespGood.take 4) = 0 ∧
        neBytesToNat true ((connRespGood.drop 4).take 4) = 7 ∧
        9 = neBytesToNat true ((connRespGood.drop 8).take 8) ∧ 7 = 7) ∧
      connect true 7 connRespGood =
        ConnResult.ok (neBytesToNat true ((connRespGood.drop 8).take 8)) 7 :=
  ⟨connect_spec.1 true 0 connRespBad (Or.inl (by decide)),
   connect_spec.2.1 true 7 connRespGood 9 7 (by decide),
   connect_spec.2.2 true 7 connRespGood (by decide) (by decide) (by decide)⟩

theorem getD_take_six (l : List Nat) (m k d : Nat) (hk : k < 6) :
    ((l.drop m).take 6).getD k d = l.getD (m + k) d := by
  rw [List.getD_eq_getElem?_getD, List.getD_eq_getElem?_getD,
    List.getElem?_take, if_pos hk, List.getElem?_drop]

/-- C5 (amended): the announce decoder reads `action`, `interval`,
`leechers`, `seeders` and each record's port in network byte order, but reads
`transaction_id` with `u32::from_ne_bytes`, i.e. native byte order —
little-endian, not network order, on the targets this crate builds for (see
`announce_tid_native_not_be`) — and returns exactly the non-zero decoded
records. -/
theorem announce_decode_spec (le : Bool) (n : Nat) (buf : List Nat) :
    (announceDecode le n buf).action = beBytesToNat (buf.take 4) ∧
    (announceDecode le n buf).tid = neBytesToNat le ((buf.drop 4).take 4) ∧
    (announceDecode le n buf).interval = beBytesToNat ((buf.drop 8).take 4) ∧
    (announceDecode le n buf).leechers = beBytesToNat ((buf.drop 12).take 4) ∧
    (announceDecode le n buf).seeders = beBytesToNat ((buf.drop 16).take 4) ∧
    (announceDecode le n buf).peersList =
      ((List.range n).map (specPeerRecord buf)).filter
        (fun ipport => ipport ≠ ((0, 0, 0, 0), 0)) := by
  refine ⟨rfl, rfl, rfl, rfl, rfl, ?_⟩
  have hrec : ∀ x : Nat,
      specPeerRecord buf x =
        ((buf.getD (20 + 6 * x) 0, buf.getD (20 + 6 * x + 1) 0,
          buf.getD (20 + 6 * x + 2) 0, buf.getD (20 + 6 * x + 3) 0),
          beBytesToNat ((buf.drop (24 + x * 6)).take 2)) := by
    intro x
    unfold specPeerRecord
    have hport : (((buf.drop (20 + 6 * x)).take 6).drop 4).take 2 =
        (buf.drop (24 + x * 6)).take 2 := by
      rw [List.drop_take, List.drop_drop]
      have h1 : (6 : ℕ) - 4 = 2 := rfl
      have h2 : 20 + 6 * x + 4 = 24 + x * 6 := by ring
      rw [h1, h2, List.take_take]
      norm_num
    simp only [hport]
    have h0 := getD_take_six buf (20 + 6 * x) 0 0 (by omega)
    have h1 := getD_take_six buf (20 + 6 * x) 1 0 (by omega)
    have h2 := getD_take_six buf (20 + 6 * x) 2 0 (by omega)
    have h3 := getD_take_six buf (20 + 6 * x) 3 0 (by omega)
    simp only [h0, h1, h2, h3, Nat.add_zero]
  cases n with
  | zero => rfl
  | succ n =>
    show (announceDecode le (n + 1) buf).peers.getD [] = _
    unfold announceDecode
    have hmap : List.map (specPeerRecord buf) (List.range (n + 1)) =
        List.map (fun x =>
          ((buf.getD (20 + 6 * x) 0, buf.getD (20 + 6 * x + 1) 0,
            buf.getD (20 + 6 * x + 2) 0, buf.getD (20 + 6 * x + 3) 0),
            beBytesToNat ((buf.drop (24 + x * 6)).take 2)))
          (List.range (n + 1)) := by
      apply List.map_congr_left
      intro x _
      exact hrec x
    rw [hmap]
    rfl

/-- C5 counterexample to the claim as stated: the transaction-id field is
decoded with `u32::from_ne_bytes` (tracker.rs:152), not big-endian: on a
little-endian target, the header bytes `[0,0,0,1]` at offset 4 decode to
`2^24`, while network byte order gives 1. -/
theorem announce_tid_native_not_be :
    (annRespAsym.drop 4).take 4 = [0, 0, 0, 1] ∧
      (announceDecode true 0 annRespAsym).tid = 2 ^ 24 ∧
      beBytesToNat ((annRespAsym.drop 4).take 4) = 1 ∧
      (announceDecode true 0 annRespAsym).tid ≠
        beBytesToNat ((annRespAsym.drop 4).take 4) := by
  refine ⟨by decide, by decide, by decide, by decide⟩

theorem getD_set_ne {α : Type} (l : List α) (a j : Nat) (v : α) (d : α)
    (h : a ≠ j) : (l.set a v).getD j d = l.getD j d := by
  rw [List.getD_eq_getElem?_getD, List.getD_eq_getElem?_getD,
    List.getElem?_set, if_neg h]

theorem getD_set_eq {α : Type} (l : List α) (a : Nat) (v : α) (d : α)
    (h : a < l.length) : (l.set a v).getD a d = v := by
  rw [List.getD_eq_getElem?_getD, List.getElem?_set, if_pos rfl, if_pos h]
  rfl

theorem set8_getD_in (hv : List Bool) (idx x k : Nat) (hk : k < 8)
    (hlen : idx + 8 ≤ hv.length) :
    ((((((((hv.set idx (testBit x 7)).set (idx + 1) (testBit x 6)).set
      (idx + 2) (testBit x 5)).set (idx + 3) (testBit x 4)).set
      (idx + 4) (testBit x 3)).set (idx + 5) (testBit x 2)).set
      (idx + 6) (testBit x 1)).set (idx + 7) (testBit x 0)).getD (idx + k)
      false = testBit x (7 - k) := by
  interval_cases k
  · rw [getD_set_ne _ _ _ _ _ (by omega), getD_set_ne _ _ _ _ _ (by omega),
      getD_set_ne _ _ _ _ _ (by omega), getD_set_ne _ _ _ _ _ (by omega),
      getD_set_ne _ _ _ _ _ (by omega), getD_set_ne _ _ _ _ _ (by omega),
      getD_set_ne _ _ _ _ _ (by omega)]
    rw [show idx + 0 = idx from rfl]
    rw [getD_set_eq _ _ _ _ (by omega)]
  · rw [getD_set_ne _ _ _ _ _ (by omega), getD_set_ne _ _ _ _ _ (by omega),
      getD_set_ne _ _ _ _ _ (by omega), getD_set_ne _ _ _ _ _ (by omega),
      getD_set_ne _ _ _ _ _ (by omega), getD_set_ne _ _ _ _ _ (by omega),
      getD_set_eq _ _ _ _ (by simp only [List.length_set]; omega)]
  · rw [getD_set_ne _ _ _ _ _ (by omega), getD_set_ne _ _ _ _ _ (by omega),
      getD_set_ne _ _ _ _ _ (by omega), getD_set_ne _ _ _ _ _ (by omega),
      getD_set_ne _ _ _ _ _ (by omega),
      getD_set_eq _ _ _ _ (by simp only [List.length_set]; omega)]
  · rw [getD_set_ne _ _ _ _ _ (by omega), getD_set_ne _ _ _ _ _ (by omega),
      getD_set_ne _ _ _ _ _ (by omega), getD_set_ne _ _ _ _ _ (by omega),
      getD_set_eq _ _ _ _ (by simp only [List.length_set]; omega)]
  · rw [getD_set_ne _ _ _ _ _ (by omega), getD_set_ne _ _ _ _ _ (by omega),
      getD_set_ne _ _ _ _ _ (by omega),
      getD_set_eq _ _ _ _ (by simp only [List.length_set]; omega)]
  · rw [getD_set_ne _ _ _ _ _ (by omega), getD_set_ne _ _ _ _ _ (by omega),
      getD_set_eq _ _ _ _ (by simp only [List.length_set]; omega)]
  · rw [getD_set_ne _ _ _ _ _ (by omega),
      getD_set_eq _ _ _ _ (by simp only [List.length_set]; omega)]
  · rw [getD_set_eq _ _ _ _ (by simp only [List.length_set]; omega)]

theorem set8_getD_out (hv : List Bool) (idx x j : Nat)
    (hout : j < idx ∨ idx + 8 ≤ j) :
    ((((((((hv.set idx (testBit x 7)).set (idx + 1) (testBit x 6)).set
      (idx + 2) (testBit x 5)).set (idx + 3) (testBit x 4)).set
      (idx + 4) (testBit x 3)).set (idx + 5) (testBit x 2)).set
      (idx + 6) (testBit x 1)).set (idx + 7) (testBit x 0)).getD j false =
      hv.getD j false := by
  rw [getD_set_ne _ _ _ _ _ (by omega), getD_set_ne _ _ _ _ _ (by omega),
    getD_set_ne _ _ _ _ _ (by omega), getD_set_ne _ _ _ _ _ (by omega),
    getD_set_ne _ _ _ _ _ (by omega), getD_set_ne _ _ _ _ _ (by omega),
    getD_set_ne _ _ _ _ _ (by omega), getD_set_ne _ _ _ _ _ (by omega)]

theorem bfMain_spec (buffer : List Nat) (len : Nat) :
    ∀ (fuel idx : Nat) (hv : List Bool), len - idx ≤ fuel → idx % 8 = 0 →
      hv.length = len →
      (bfMain fuel buffer len idx hv).2 % 8 = 0 ∧
      idx ≤ (bfMain fuel buffer len idx hv).2 ∧
      len ≤ (bfMain fuel buffer len idx hv).2 + 8 ∧
      ((bfMain fuel buffer len idx hv).2 = idx ∨
        (bfMain fuel buffer len idx hv).2 < len) ∧
      (bfMain fuel buffer len idx hv).1.length = len ∧
      ∀ j : Nat, (bfMain fuel buffer len idx hv).1.getD j false =
        if idx ≤ j ∧ j < (bfMain fuel buffer len idx hv).2 then
          testBit (buffer.getD (j / 8) 0) (7 - j % 8)
        else hv.getD j false := by
  intro fuel
  induction fuel with
  | zero =>
    intro idx hv hfuel hidx hlen
    have hstep : bfMain 0 buffer len idx hv = (hv, idx) := rfl
    rw [hstep]
    refine ⟨hidx, le_refl idx, by omega, Or.inl rfl, hlen, ?_⟩
    intro j
    rw [if_neg (by omega)]
  | succ fuel ih =>
    intro idx hv hfuel hidx hlen
    by_cases hcond : idx + 8 < len
    · have hstep :
          bfMain (fuel + 1) buffer len idx hv =
            bfMain fuel buffer len (idx + 8)
              ((((((((hv.set idx (testBit (buffer.getD (idx / 8) 0) 7)).set
                (idx + 1) (testBit (buffer.getD (idx / 8) 0) 6)).set
                (idx + 2) (testBit (buffer.getD (idx / 8) 0) 5)).set
                (idx + 3) (testBit (buffer.getD (idx / 8) 0) 4)).set
                (idx + 4) (testBit (buffer.getD (idx / 8) 0) 3)).set
                (idx + 5) (testBit (buffer.getD (idx / 8) 0) 2)).set
                (idx + 6) (testBit (buffer.getD (idx / 8) 0) 1)).set
                (idx + 7) (testBit (buffer.getD (idx / 8) 0) 0)) := by
        simp only [bfMain]
        rw [if_pos hcond]
      rw [hstep]
      have hlen8 : idx + 8 ≤ hv.length := by omega
      set hv8 := (((((((hv.set idx (testBit (buffer.getD (idx / 8) 0) 7)).set
        (idx + 1) (testBit (buffer.getD (idx / 8) 0) 6)).set
        (idx + 2) (testBit (buffer.getD (idx / 8) 0) 5)).set
        (idx + 3) (testBit (buffer.getD (idx / 8) 0) 4)).set
        (idx + 4) (testBit (buffer.getD (idx / 8) 0) 3)).set
        (idx + 5) (testBit (buffer.getD (idx / 8) 0) 2)).set
        (idx + 6) (testBit (buffer.getD (idx / 8) 0) 1)).set
        (idx + 7) (testBit (buffer.getD (idx / 8) 0) 0) with hhv8
      have hout8 : ∀ j : Nat, j < idx ∨ idx + 8 ≤ j →
          hv8.getD j false = hv.getD j false := by
        intro j hj
        rw [hhv8]
        exact set8_getD_out hv idx (buffer.getD (idx / 8) 0) j hj
      have hin8 : ∀ k : Nat, k < 8 →
          hv8.getD (idx + k) false =
            testBit (buffer.getD (idx / 8) 0) (7 - k) := by
        intro k hk
        rw [hhv8]
        exact set8_getD_in hv idx (buffer.getD (idx / 8) 0) k hk hlen8
      obtain ⟨ih1, ih2, ih3, ih4, ih5, ih6⟩ :=
        ih (idx + 8) hv8 (by omega) (by omega)
          (by rw [hhv8]; simp only [List.length_set]; exact hlen)
      refine ⟨ih1, by omega, ih3, Or.inr (by omega), ih5, ?_⟩
      intro j
      rcases lt_or_ge j idx with hji | hji
      · have h := ih6 j
        rw [if_neg (by omega)] at h
        rw [h, hout8 j (Or.inl hji), if_neg (by omega)]
      · rcases lt_or_ge j (idx + 8) with hj8 | hj8
        · have h := ih6 j
          rw [if_neg (by omega)] at h
          have hin := hin8 (j - idx) (by omega)
          rw [(by omega : idx + (j - idx) = j)] at hin
          rw [h, hin, if_pos ⟨by omega, by omega⟩]
          have e1 : j / 8 = idx / 8 := by omega
          have e2 : j % 8 = j - idx := by omega
          rw [e1, e2]
        · rcases lt_or_ge j (bfMain fuel buffer len (idx + 8) hv8).2 with hjr | hjr
          · have h := ih6 j
            rw [if_pos ⟨by omega, hjr⟩] at h
            rw [h, if_pos ⟨by omega, hjr⟩]
          · have h := ih6 j
            rw [if_neg (by omega)] at h
            rw [h, hout8 j (Or.inr hj8), if_neg (by omega)]
    · have hstep : bfMain (fuel + 1) buffer len idx hv = (hv, idx) := by
        simp only [bfMain]
        rw [if_neg hcond]
      rw [hstep]
      refine ⟨hidx, le_refl idx, by omega, Or.inl rfl, hlen, ?_⟩
      intro j
      rw [if_neg (by omega)]

theorem bfTail_spec (lastByte len : Nat) :
    ∀ (fuel idx shift : Nat) (hv : List Bool), len - idx ≤ fuel →
      hv.length = len →
      (bfTail fuel lastByte len idx shift hv).length = len ∧
      ∀ j : Nat, (bfTail fuel lastByte len idx shift hv).getD j false =
        if idx ≤ j ∧ j < len then testBit lastByte (shift - (j - idx))
        else hv.getD j false := by
  intro fuel
  induction fuel with
  | zero =>
    intro idx shift hv hfuel hlen
    simp only [bfTail]
    exact ⟨hlen, fun j => by rw [if_neg (by omega)]⟩
  | succ fuel ih =>
    intro idx shift hv hfuel hlen
    by_cases hcond : idx < len
    · have hstep :
          bfTail (fuel + 1) lastByte len idx shift hv =
            bfTail fuel lastByte len (idx + 1) (shift - 1)
              (hv.set idx (testBit lastByte shift)) := by
        simp only [bfTail]
        rw [if_pos hcond]
      rw [hstep]
      obtain ⟨ih1, ih2⟩ := ih (idx + 1) (shift - 1)
        (hv.set idx (testBit lastByte shift)) (by omega)
        (by simp only [List.length_set]; exact hlen)
      refine ⟨ih1, ?_⟩
      intro j
      rcases lt_or_ge j idx with hji | hji
      · have h := ih2 j
        rw [if_neg (by omega)] at h
        rw [h, getD_set_ne _ _ _ _ _ (by omega), if_neg (by omega)]
      · rcases eq_or_lt_of_le hji with hj0 | hj1
        · have h := ih2 j
          rw [if_neg (by omega)] at h
          rw [h, ← hj0, getD_set_eq _ _ _ _ (by omega),
            if_pos ⟨le_refl idx, hcond⟩,
            (by omega : shift - (idx - idx) = shift)]
        · rcases lt_or_ge j len with hjl | hjl
          · have h := ih2 j
            rw [if_pos ⟨by omega, hjl⟩] at h
            rw [h, if_pos ⟨by omega, hjl⟩,
              (by omega : shift - 1 - (j - (idx + 1)) = shift - (j - idx))]
          · have h := ih2 j
            rw [if_neg (by omega)] at h
            rw [h, getD_set_ne _ _ _ _ _ (by omega), if_neg (by omega)]
    · have hstep : bfTail (fuel + 1) lastByte len idx shift hv = hv := by
        simp only [bfTail]
        rw [if_neg hcond]
      rw [hstep]
      exact ⟨hlen, fun j => by rw [if_neg (by omega)]⟩

/-- C2 (amended): for a bitfield payload of exactly `⌈N/8⌉` bytes, the
handler sets every `have[i]`, `i < N`, to bit `7 - (i % 8)` of byte
`⌊i/8⌋`, MSB-first. The amendment: the exact-size hypothesis replaces the
claim's tolerance of longer payloads — the handler's trailing-bits loop reads
the *last* byte of the payload (`buffer[buffer.len() - 1]`, peer.rs:149)
rather than byte `⌊i/8⌋`, so an oversize payload corrupts the final partial
block (see `bitfield_oversize_wrong_bit`). -/
theorem bitfield_exact (hv : List Bool) (buffer : List Nat)
    (hexact : buffer.length = (hv.length + 7) / 8) :
    ∃ h' : List Bool, bitfield hv buffer = some h' ∧
      h'.length = hv.length ∧
      ∀ i < hv.length, h'.getD i false =
        testBit (buffer.getD (i / 8) 0) (7 - i % 8) := by
  have hsz : hv.length ≤ 8 * buffer.length := by omega
  obtain ⟨m1, m2, m3, m4, m5, m6⟩ :=
    bfMain_spec buffer hv.length hv.length 0 hv (by omega) (by omega) rfl
  obtain ⟨t1, t2⟩ :=
    bfTail_spec (buffer.getD (buffer.length - 1) 0) hv.length hv.length
      (bfMain hv.length buffer hv.length 0 hv).2 7
      (bfMain hv.length buffer hv.length 0 hv).1 (by omega) m5
  refine ⟨_, ?_, t1, ?_⟩
  · unfold bitfield
    rw [if_pos hsz]
  · intro i hi
    have hm2lt : (bfMain hv.length buffer hv.length 0 hv).2 < hv.length := by
      rcases m4 with h0 | hlt
      · omega
      · exact hlt
    rcases lt_or_ge i (bfMain hv.length buffer hv.length 0 hv).2 with hlt | hge
    · have h := t2 i
      rw [if_neg (by omega)] at h
      rw [h]
      have h' := m6 i
      rw [if_pos ⟨by omega, hlt⟩] at h'
      exact h'
    · have h := t2 i
      rw [if_pos ⟨hge, hi⟩] at h
      rw [h]
      have e1 : 7 - (i - (bfMain hv.length buffer hv.length 0 hv).2) =
          7 - i % 8 := by omega
      have e2 : buffer.length - 1 = i / 8 := by omega
      rw [e1, e2]

/-- C2 counterexample to the claim as stated: a single-piece session
(`N = 1`) given the oversize two-byte bitfield `[0x80, 0x00]`
(`8 * 2 ≥ 1`): bit `7 - (0 % 8)` of byte `⌊0/8⌋` is set, yet the handler
leaves `have[0] = false`, because its trailing-bits loop reads the last
payload byte `0x00` instead of byte 0. -/
theorem bitfield_oversize_wrong_bit :
    (1 : Nat) ≤ 8 * ([128, 0] : List Nat).length ∧
      bitfield [false] [128, 0] = some [false] ∧
      testBit (([128, 0] : List Nat).getD (0 / 8) 0) (7 - 0 % 8) = true ∧
      ([false] : List Bool).getD 0 false ≠
        testBit (([128, 0] : List Nat).getD (0 / 8) 0) (7 - 0 % 8) := by
  refine ⟨by decide, by decide, by decide, by decide⟩

theorem bitfield_exact_witness :
    ∃ h' : List Bool, bitfield [false, false, false, false, false, false,
      false, false, false] [164, 128] = some h' ∧ h'.length = 9 ∧
      ∀ i < 9, h'.getD i false =
        testBit (([164, 128] : List Nat).getD (i / 8) 0) (7 - i % 8) := by
  have h := bitfield_exact (List.replicate 9 false) [164, 128] (by decide)
  simpa using h

/-- FIPS 180-4 test vector: `sha1("abc")`. -/
theorem sha1_abc : sha1 [97, 98, 99] =
    [0xa9, 0x99, 0x3e, 0x36, 0x47, 0x06, 0x81, 0x6a, 0xba, 0x3e,
     0x25, 0x71, 0x78, 0x50, 0xc2, 0x6c, 0x9c, 0xd0, 0xd8, 0x9d] := by
  decide

/-- Two-block test vector:
`sha1("abcdbcdecdefdefgefghfghighijhijkijkljklmklmnlmnomnopnopq")`. -/
theorem sha1_two_blocks : sha1 [97, 98, 99, 100, 98, 99, 100, 101, 99, 100,
    101, 102, 100, 101, 102, 103, 101, 102, 103, 104, 102, 103, 104, 105,
    103, 104, 105, 106, 104, 105, 106, 107, 105, 106, 107, 108, 106, 107,
    108, 109, 107, 108, 109, 110, 108, 109, 110, 111, 109, 110, 111, 112,
    110, 111, 112, 113] =
    [0x84, 0x98, 0x3e, 0x44, 0x1c, 0x3b, 0xd2, 0x6e, 0xba, 0xae,
     0x4a, 0xa1, 0xf9, 0x51, 0x29, 0xe5, 0xe5, 0x46, 0x70, 0xf1] := by
  decide

theorem natDigitsGo_acc (fuel : Nat) : ∀ (n : Nat) (acc : List Nat),
    natDigitsGo fuel n acc = natDigitsGo fuel n [] ++ acc := by
  induction fuel with
  | zero => intro n acc; rfl
  | succ f ih =>
    intro n acc
    by_cases h : n < 10
    · simp only [natDigitsGo, if_pos h]
      rfl
    · simp only [natDigitsGo, if_neg h]
      rw [ih (n / 10) ((48 + n % 10) :: acc), ih (n / 10) [48 + n % 10]]
      simp

theorem natDigitsGo_congr (N : Nat) : ∀ (f g n : Nat), n < f → n < g → n ≤ N →
    natDigitsGo f n [] = natDigitsGo g n [] := by
  induction N with
  | zero =>
    intro f g n hf hg hN
    have hn : n = 0 := by omega
    subst hn
    obtain ⟨f', rfl⟩ : ∃ f', f = f' + 1 := ⟨f - 1, by omega⟩
    obtain ⟨g', rfl⟩ : ∃ g', g = g' + 1 := ⟨g - 1, by omega⟩
    rfl
  | succ N ih =>
    intro f g n hf hg hN
    obtain ⟨f', rfl⟩ : ∃ f', f = f' + 1 := ⟨f - 1, by omega⟩
    obtain ⟨g', rfl⟩ : ∃ g', g = g' + 1 := ⟨g - 1, by omega⟩
    by_cases h : n < 10
    · simp only [natDigitsGo, if_pos h]
    · simp only [natDigitsGo, if_neg h]
      rw [natDigitsGo_acc f', natDigitsGo_acc g']
      rw [ih f' g' (n / 10) (by omega) (by omega) (by omega)]

theorem natDigits_eq (n : Nat) :
    natDigits n =
      if n < 10 then [48 + n] else natDigits (n / 10) ++ [48 + n % 10] := by
  unfold natDigits
  by_cases h : n < 10
  · simp only [natDigitsGo, if_pos h]
  · simp only [natDigitsGo, if_neg h]
    rw [natDigitsGo_acc]
    congr 1
    exact natDigitsGo_congr n n (n / 10 + 1) (n / 10) (by omega) (by omega)
      (by omega)

theorem natDigits_all_digits (n : Nat) : ∀ c ∈ natDigits n, 48 ≤ c ∧ c ≤ 57 := by
  induction n using Nat.strong_induction_on with
  | _ n ih =>
    rw [natDigits_eq]
    by_cases h : n < 10
    · rw [if_pos h]
      intro c hc
      simp at hc
      omega
    · rw [if_neg h]
      intro c hc
      rcases List.mem_append.mp hc with hc | hc
      · exact ih (n / 10) (by omega) c hc
      · simp at hc
        omega

theorem natDigits_ne_nil (n : Nat) : natDigits n ≠ [] := by
  rw [natDigits_eq]
  by_cases h : n < 10 <;> simp [h]

theorem bytes_to_num_natDigits (n : Nat) : bytes_to_num (natDigits n) = n := by
  induction n using Nat.strong_induction_on with
  | _ n ih =>
    rw [natDigits_eq]
    by_cases h : n < 10
    · rw [if_pos h]
      unfold bytes_to_num
      simp only [List.foldl_cons, List.foldl_nil]
      omega
    · rw [if_neg h]
      have hrec := ih (n / 10) (by omega)
      unfold bytes_to_num at hrec ⊢
      rw [List.foldl_append, hrec]
      simp only [List.foldl_cons, List.foldl_nil]
      omega

theorem splitUntil_cons_of_ne (c x : Nat) (t : List Nat) (hx : x ≠ c) :
    splitUntil c (x :: t) = (splitUntil c t).map (fun p => (x :: p.1, p.2)) := by
  have hdef : splitUntil c (x :: t) =
      if x = c then some ([], x :: t)
      else
        match splitUntil c t with
        | none => none
        | some (pre, rest) => some (x :: pre, rest) := rfl
  rw [hdef, if_neg hx]
  cases hsp : splitUntil c t with
  | none => rfl
  | some p => cases p; rfl

theorem splitUntil_eq_append (c : Nat) : ∀ (l ds rest : List Nat),
    splitUntil c l = some (ds, rest) → l = ds ++ rest := by
  intro l
  induction l with
  | nil => intro ds rest h; cases h
  | cons x t ih =>
    intro ds rest h
    by_cases hx : x = c
    · unfold splitUntil at h
      rw [if_pos hx] at h
      cases h
      rfl
    · rw [splitUntil_cons_of_ne c x t hx] at h
      cases hsp : splitUntil c t with
      | none => rw [hsp] at h; cases h
      | some p =>
        rw [hsp] at h
        obtain ⟨pre1, rest1⟩ := p
        have h2 : some (x :: pre1, rest1) = some (ds, rest) := h
        cases h2
        simp only [List.cons_append]
        rw [ih _ _ hsp]

theorem splitUntil_append (c : Nat) : ∀ (pre post : List Nat), c ∉ pre →
    splitUntil c (pre ++ c :: post) = some (pre, c :: post) := by
  intro pre
  induction pre with
  | nil =>
    intro post _
    rw [List.nil_append]
    have hdef : splitUntil c (c :: post) =
        if c = c then some ([], c :: post)
        else
          match splitUntil c post with
          | none => none
          | some (pre, rest) => some (c :: pre, rest) := rfl
    rw [hdef, if_pos rfl]
  | cons x t ih =>
    intro post h
    have hx : x ≠ c := by intro he; exact h (he ▸ List.mem_cons_self x t)
    rw [List.cons_append, splitUntil_cons_of_ne c x _ hx,
      ih post (fun hm => h (List.mem_cons_of_mem x hm))]
    rfl

theorem scanFuel_nil (f s : Nat) : scanFuel f [] s = none := by
  cases f <;> rfl

theorem scanFuel_cons_def (f b : Nat) (t : List Nat) (s : Nat) :
    scanFuel (f + 1) (b :: t) s =
      if b = eC then
        if s = 0 then some []
        else (scanFuel f t (s - 1)).map (fun r => b :: r)
      else if isDigitB b then
        match splitUntil colonC (b :: t) with
        | none => none
        | some (ds, rest) =>
          if bytes_to_num ds + 1 ≤ rest.length then
            (scanFuel f (rest.drop (bytes_to_num ds + 1)) s).map
              (fun r => ds ++ rest.take (bytes_to_num ds + 1) ++ r)
          else none
      else if b = iC then
        match splitUntil eC (b :: t) with
        | none => none
        | some (ds, rest) =>
          match rest with
          | [] => none
          | e :: rest2 => (scanFuel f rest2 s).map (fun r => ds ++ e :: r)
      else if b = lC ∨ b = dC then
        (scanFuel f t (s + 1)).map (fun r => b :: r)
      else none := rfl

theorem isDigitB_bounds (b : Nat) (h : isDigitB b = true) : 48 ≤ b ∧ b ≤ 57 := by
  simp [isDigitB] at h
  exact h

theorem scanFuel_e0 (f : Nat) (t : List Nat) :
    scanFuel (f + 1) (eC :: t) 0 = some [] := by
  rw [scanFuel_cons_def, if_pos rfl, if_pos rfl]

theorem scanFuel_eS (f : Nat) (t : List Nat) (s : Nat) (hs : s ≠ 0) :
    scanFuel (f + 1) (eC :: t) s =
      (scanFuel f t (s - 1)).map (fun r => eC :: r) := by
  rw [scanFuel_cons_def, if_pos rfl, if_neg hs]

theorem scanFuel_digit (f b : Nat) (t : List Nat) (s : Nat)
    (ds rest : List Nat) (hb : isDigitB b = true)
    (hsp : splitUntil colonC (b :: t) = some (ds, rest)) :
    scanFuel (f + 1) (b :: t) s =
      if bytes_to_num ds + 1 ≤ rest.length then
        (scanFuel f (rest.drop (bytes_to_num ds + 1)) s).map
          (fun r => ds ++ rest.take (bytes_to_num ds + 1) ++ r)
      else none := by
  have hbb := isDigitB_bounds b hb
  rw [scanFuel_cons_def, if_neg (by unfold eC; omega), if_pos hb, hsp]

theorem scanFuel_digit_none (f b : Nat) (t : List Nat) (s : Nat)
    (hb : isDigitB b = true)
    (hsp : splitUntil colonC (b :: t) = none) :
    scanFuel (f + 1) (b :: t) s = none := by
  have hbb := isDigitB_bounds b hb
  rw [scanFuel_cons_def, if_neg (by unfold eC; omega), if_pos hb, hsp]

theorem scanFuel_i_eq (f : Nat) (t ds rest2 : List Nat) (s : Nat)
    (hsp : splitUntil eC (iC :: t) = some (ds, eC :: rest2)) :
    scanFuel (f + 1) (iC :: t) s =
      (scanFuel f rest2 s).map (fun r => ds ++ eC :: r) := by
  rw [scanFuel_cons_def, if_neg (by decide), if_neg (by decide),
    if_pos rfl, hsp]

theorem scanFuel_i_none (f : Nat) (t : List Nat) (s : Nat)
    (hsp : splitUntil eC (iC :: t) = none) :
    scanFuel (f + 1) (iC :: t) s = none := by
  rw [scanFuel_cons_def, if_neg (by decide), if_neg (by decide),
    if_pos rfl, hsp]

theorem scanFuel_open (f b : Nat) (t : List Nat) (s : Nat)
    (hb : b = lC ∨ b = dC) :
    scanFuel (f + 1) (b :: t) s =
      (scanFuel f t (s + 1)).map (fun r => b :: r) := by
  have h1 : b ≠ eC := by rcases hb with h | h <;> subst h <;> decide
  have h2 : ¬isDigitB b = true := by
    rcases hb with h | h <;> subst h <;> decide
  have h3 : b ≠ iC := by rcases hb with h | h <;> subst h <;> decide
  rw [scanFuel_cons_def, if_neg h1, if_neg h2, if_neg h3, if_pos hb]

theorem scanFuel_other (f b : Nat) (t : List Nat) (s : Nat)
    (h1 : b ≠ eC) (h2 : ¬isDigitB b = true) (h3 : b ≠ iC)
    (h4 : ¬(b = lC ∨ b = dC)) :
    scanFuel (f + 1) (b :: t) s = none := by
  rw [scanFuel_cons_def, if_neg h1, if_neg h2, if_neg h3, if_neg h4]

theorem splitUntil_head (c : Nat) : ∀ (l ds rest : List Nat),
    splitUntil c l = some (ds, rest) → ∃ rr, rest = c :: rr := by
  intro l
  induction l with
  | nil => intro ds rest h; cases h
  | cons x t ih =>
    intro ds rest h
    by_cases hx : x = c
    · subst hx
      have hdef : splitUntil x (x :: t) = some ([], x :: t) := by
        have : splitUntil x (x :: t) =
            if x = x then some ([], x :: t)
            else
              match splitUntil x t with
              | none => none
              | some (pre, r) => some (x :: pre, r) := rfl
        rw [this, if_pos rfl]
      rw [hdef] at h
      have h2 : ([] : List Nat) = ds ∧ x :: t = rest := by
        cases h; exact ⟨rfl, rfl⟩
      exact ⟨t, h2.2.symm⟩
    · rw [splitUntil_cons_of_ne c x t hx] at h
      cases hsp : splitUntil c t with
      | none => rw [hsp] at h; cases h
      | some p =>
        obtain ⟨a1, a2⟩ := p
        rw [hsp] at h
        have h2 : some (x :: a1, a2) = some (ds, rest) := h
        cases h2
        exact ih _ _ hsp

theorem splitUntil_cons_ne_parts (c b : Nat) (t ds rest : List Nat)
    (hb : b ≠ c) (hsp : splitUntil c (b :: t) = some (ds, rest)) :
    ∃ ds', ds = b :: ds' ∧ splitUntil c t = some (ds', rest) := by
  rw [splitUntil_cons_of_ne c b t hb] at hsp
  cases hsp2 : splitUntil c t with
  | none => rw [hsp2] at hsp; cases hsp
  | some p =>
    obtain ⟨a1, a2⟩ := p
    rw [hsp2] at hsp
    have h2a : b :: a1 = ds := by cases hsp; rfl
    have h2b : a2 = rest := by cases hsp; rfl
    subst h2b
    exact ⟨a1, h2a.symm, rfl⟩

theorem scanFuel_congr (N : Nat) : ∀ (l : List Nat) (f g s : Nat),
    l.length ≤ N → l.length ≤ f → l.length ≤ g →
    scanFuel f l s = scanFuel g l s := by
  induction N with
  | zero =>
    intro l f g s hN _ _
    have hl : l = [] := List.eq_nil_of_length_eq_zero (by omega)
    subst hl
    rw [scanFuel_nil, scanFuel_nil]
  | succ N ih =>
    intro l f g s hN hf hg
    cases l with
    | nil => rw [scanFuel_nil, scanFuel_nil]
    | cons b t =>
      simp only [List.length_cons] at hN hf hg
      obtain ⟨f', rfl⟩ : ∃ f', f = f' + 1 := ⟨f - 1, by omega⟩
      obtain ⟨g', rfl⟩ : ∃ g', g = g' + 1 := ⟨g - 1, by omega⟩
      by_cases hbe : b = eC
      · subst hbe
        by_cases hs : s = 0
        · subst hs
          rw [scanFuel_e0, scanFuel_e0]
        · rw [scanFuel_eS _ _ _ hs, scanFuel_eS _ _ _ hs,
            ih t f' g' (s - 1) (by omega) (by omega) (by omega)]
      · by_cases hbd : isDigitB b = true
        · cases hsp : splitUntil colonC (b :: t) with
          | none =>
            rw [scanFuel_digit_none _ _ _ _ hbd hsp,
              scanFuel_digit_none _ _ _ _ hbd hsp]
          | some p =>
            obtain ⟨ds, rest⟩ := p
            have hbc : b ≠ colonC := by
              have := isDigitB_bounds b hbd
              unfold colonC
              omega
            obtain ⟨ds', hds, hsp'⟩ :=
              splitUntil_cons_ne_parts colonC b t ds rest hbc hsp
            have hrt : rest.length ≤ t.length := by
              have := splitUntil_eq_append colonC t ds' rest hsp'
              have : t.length = ds'.length + rest.length := by
                rw [this, List.length_append]
              omega
            rw [scanFuel_digit _ _ _ _ _ _ hbd hsp,
              scanFuel_digit _ _ _ _ _ _ hbd hsp]
            by_cases hle : bytes_to_num ds + 1 ≤ rest.length
            · rw [if_pos hle, if_pos hle,
                ih (rest.drop (bytes_to_num ds + 1)) f' g' s
                  (by simp only [List.length_drop]; omega)
                  (by simp only [List.length_drop]; omega)
                  (by simp only [List.length_drop]; omega)]
            · rw [if_neg hle, if_neg hle]
        · by_cases hbi : b = iC
          · subst hbi
            cases hsp : splitUntil eC (iC :: t) with
            | none =>
              rw [scanFuel_i_none _ _ _ hsp, scanFuel_i_none _ _ _ hsp]
            | some p =>
              obtain ⟨ds, rest⟩ := p
              obtain ⟨rr, hrr⟩ := splitUntil_head eC _ _ _ hsp
              subst hrr
              have hie : (iC : Nat) ≠ eC := by decide
              obtain ⟨ds', hds, hsp'⟩ :=
                splitUntil_cons_ne_parts eC iC t ds _ hie hsp
              have hrt : rr.length + 1 ≤ t.length := by
                have := splitUntil_eq_append eC t ds' (eC :: rr) hsp'
                have : t.length = ds'.length + (rr.length + 1) := by
                  rw [this]
                  simp
                omega
              rw [scanFuel_i_eq _ _ _ _ _ hsp, scanFuel_i_eq _ _ _ _ _ hsp,
                ih rr f' g' s (by omega) (by omega) (by omega)]
          · by_cases hbo : b = lC ∨ b = dC
            · rw [scanFuel_open _ _ _ _ hbo, scanFuel_open _ _ _ _ hbo,
                ih t f' g' (s + 1) (by omega) (by omega) (by omega)]
            · rw [scanFuel_other _ _ _ _ hbe hbd hbi hbo,
                scanFuel_other _ _ _ _ hbe hbd hbi hbo]

theorem scanStr (s rest : List Nat) (stack fuel : Nat)
    (hfu : (encStr s ++ rest).length ≤ fuel) :
    scanFuel fuel (encStr s ++ rest) stack =
      (scanFuel fuel rest stack).map (fun r => encStr s ++ r) := by
  obtain ⟨d, ds', hnd⟩ : ∃ d ds', natDigits s.length = d :: ds' := by
    cases hh : natDigits s.length with
    | nil => exact absurd hh (natDigits_ne_nil _)
    | cons d ds' => exact ⟨d, ds', rfl⟩
  have hdig := natDigits_all_digits s.length
  have hd : isDigitB d = true := by
    have := hdig d (by rw [hnd]; exact List.mem_cons_self _ _)
    simp [isDigitB]
    omega
  have hshape : encStr s ++ rest = d :: (ds' ++ colonC :: (s ++ rest)) := by
    unfold encStr
    rw [hnd]
    simp
  have hlen : (encStr s ++ rest).length =
      ds'.length + s.length + rest.length + 2 := by
    rw [hshape]
    simp
    omega
  obtain ⟨f', rfl⟩ : ∃ f', fuel = f' + 1 := ⟨fuel - 1, by omega⟩
  rw [hshape]
  have hsp : splitUntil colonC (d :: (ds' ++ colonC :: (s ++ rest))) =
      some (d :: ds', colonC :: (s ++ rest)) := by
    have hjoin : d :: (ds' ++ colonC :: (s ++ rest)) =
        (d :: ds') ++ colonC :: (s ++ rest) := by simp
    rw [hjoin]
    apply splitUntil_append
    intro hmem
    have := hdig colonC (by rw [hnd]; exact hmem)
    unfold colonC at this
    omega
  rw [scanFuel_digit f' d _ stack _ _ hd hsp]
  have hval : bytes_to_num (d :: ds') = s.length := by
    rw [← hnd]
    exact bytes_to_num_natDigits _
  rw [hval]
  rw [if_pos (by simp)]
  have hdrop : (colonC :: (s ++ rest)).drop (s.length + 1) = rest := by
    rw [List.drop_succ_cons, List.drop_left]
  have htake : (colonC :: (s ++ rest)).take (s.length + 1) = colonC :: s := by
    rw [List.take_succ_cons, List.take_left]
  rw [hdrop, htake]
  rw [scanFuel_congr rest.length rest f' (f' + 1) stack (le_refl _)
    (by omega) (by omega)]
  cases scanFuel (f' + 1) rest stack with
  | none => rfl
  | some r =>
    simp only [Option.map_some']
    unfold encStr
    rw [hnd]

mutual

theorem scanV (v : Bval) : ∀ (rest : List Nat) (stack fuel : Nat),
    wfV v = true → (encV v ++ rest).length ≤ fuel →
    scanFuel fuel (encV v ++ rest) stack =
      (scanFuel fuel rest stack).map (fun r => encV v ++ r) := by
  cases v with
  | str s =>
    intro rest stack fuel _ hfu
    exact scanStr s rest stack fuel hfu
  | int ds =>
    intro rest stack fuel hwf hfu
    have hw : ds ≠ [] ∧ ∀ c ∈ ds, isDigitB c = true ∨ c = 45 := by
      simpa [wfV] using hwf
    have hshape : encV (.int ds) ++ rest = (iC :: ds) ++ eC :: rest := by
      show (iC :: (ds ++ [eC])) ++ rest = (iC :: ds) ++ eC :: rest
      simp
    have hnum : ds.length + rest.length + 2 ≤ fuel := by
      have : (encV (.int ds) ++ rest).length = ds.length + rest.length + 2 := by
        rw [hshape]
        simp
        omega
      omega
    obtain ⟨f', rfl⟩ : ∃ f', fuel = f' + 1 := ⟨fuel - 1, by omega⟩
    rw [hshape]
    have hsp : splitUntil eC ((iC :: ds) ++ eC :: rest) =
        some (iC :: ds, eC :: rest) := by
      apply splitUntil_append
      intro hmem
      rcases List.mem_cons.mp hmem with h | h
      · cases h
      · rcases hw.2 eC h with hd | hd
        · have := isDigitB_bounds _ hd
          unfold eC at this
          omega
        · cases hd
    have hsp2 : splitUntil eC (iC :: (ds ++ eC :: rest)) =
        some (iC :: ds, eC :: rest) := by
      rw [← List.cons_append]
      exact hsp
    rw [List.cons_append]
    rw [scanFuel_i_eq f' _ _ _ stack hsp2]
    rw [scanFuel_congr rest.length rest f' (f' + 1) stack (le_refl _)
      (by omega) (by omega)]
    cases scanFuel (f' + 1) rest stack with
    | none => rfl
    | some r =>
      simp only [Option.map_some']
      show some (iC :: ds ++ eC :: r) = some ((iC :: (ds ++ [eC])) ++ r)
      simp
  | lst vs =>
    intro rest stack fuel hwf hfu
    have hw : wfL vs = true := by simpa [wfV] using hwf
    have hshape : encV (.lst vs) ++ rest = lC :: (encL vs ++ eC :: rest) := by
      show (lC :: (encL vs ++ [eC])) ++ rest = lC :: (encL vs ++ eC :: rest)
      simp
    have hnum : (encL vs).length + rest.length + 2 ≤ fuel := by
      have : (encV (.lst vs) ++ rest).length =
          (encL vs).length + rest.length + 2 := by
        rw [hshape]
        simp
        omega
      omega
    obtain ⟨f', rfl⟩ : ∃ f', fuel = f' + 1 := ⟨fuel - 1, by omega⟩
    rw [hshape]
    rw [scanFuel_open f' lC _ stack (Or.inl rfl)]
    rw [scanFuel_congr (encL vs ++ eC :: rest).length _ f' (f' + 1) (stack + 1)
      (le_refl _) (by simp only [List.length_append, List.length_cons]; omega)
      (by simp only [List.length_append, List.length_cons]; omega)]
    rw [scanL vs (eC :: rest) (stack + 1) (f' + 1) hw
      (by simp only [List.length_append, List.length_cons]; omega)]
    rw [scanFuel_eS f' rest (stack + 1) (by omega)]
    rw [(by omega : stack + 1 - 1 = stack)]
    rw [scanFuel_congr rest.length rest f' (f' + 1) stack (le_refl _)
      (by omega) (by omega)]
    cases scanFuel (f' + 1) rest stack with
    | none => rfl
    | some r =>
      simp only [Option.map_some']
      show some (lC :: (encL vs ++ eC :: r)) =
        some ((lC :: (encL vs ++ [eC])) ++ r)
      simp
  | dct kvs =>
    intro rest stack fuel hwf hfu
    have hw : wfD kvs = true := by simpa [wfV] using hwf
    have hshape : encV (.dct kvs) ++ rest = dC :: (encD kvs ++ eC :: rest) := by
      show (dC :: (encD kvs ++ [eC])) ++ rest = dC :: (encD kvs ++ eC :: rest)
      simp
    have hnum : (encD kvs).length + rest.length + 2 ≤ fuel := by
      have : (encV (.dct kvs) ++ rest).length =
          (encD kvs).length + rest.length + 2 := by
        rw [hshape]
        simp
        omega
      omega
    obtain ⟨f', rfl⟩ : ∃ f', fuel = f' + 1 := ⟨fuel - 1, by omega⟩
    rw [hshape]
    rw [scanFuel_open f' dC _ stack (Or.inr rfl)]
    rw [scanFuel_congr (encD kvs ++ eC :: rest).length _ f' (f' + 1) (stack + 1)
      (le_refl _) (by simp only [List.length_append, List.length_cons]; omega)
      (by simp only [List.length_append, List.length_cons]; omega)]
    rw [scanD kvs (eC :: rest) (stack + 1) (f' + 1) hw
      (by simp only [List.length_append, List.length_cons]; omega)]
    rw [scanFuel_eS f' rest (stack + 1) (by omega)]
    rw [(by omega : stack + 1 - 1 = stack)]
    rw [scanFuel_congr rest.length rest f' (f' + 1) stack (le_refl _)
      (by omega) (by omega)]
    cases scanFuel (f' + 1) rest stack with
    | none => rfl
    | some r =>
      simp only [Option.map_some']
      show some (dC :: (encD kvs ++ eC :: r)) =
        some ((dC :: (encD kvs ++ [eC])) ++ r)
      simp

theorem scanL (vs : Blist) : ∀ (rest : List Nat) (stack fuel : Nat),
    wfL vs = true → (encL vs ++ rest).length ≤ fuel →
    scanFuel fuel (encL vs ++ rest) stack =
      (scanFuel fuel rest stack).map (fun r => encL vs ++ r) := by
  cases vs with
  | lnil =>
    intro rest stack fuel _ _
    show scanFuel fuel ([] ++ rest) stack =
      (scanFuel fuel rest stack).map (fun r => [] ++ r)
    rw [List.nil_append]
    cases scanFuel fuel rest stack with
    | none => rfl
    | some r => simp
  | lcons v t =>
    intro rest stack fuel hwf hfu
    have hw : wfV v = true ∧ wfL t = true := by
      simpa [wfL, Bool.and_eq_true] using hwf
    have hshape : encL (.lcons v t) ++ rest = encV v ++ (encL t ++ rest) := by
      show (encV v ++ encL t) ++ rest = encV v ++ (encL t ++ rest)
      simp
    have hfu2 : (encV v ++ (encL t ++ rest)).length ≤ fuel := by
      rw [← hshape]
      exact hfu
    rw [hshape]
    rw [scanV v (encL t ++ rest) stack fuel hw.1 hfu2]
    rw [scanL t rest stack fuel hw.2
      (by simp only [List.length_append] at hfu2 ⊢; omega)]
    cases scanFuel fuel rest stack with
    | none => rfl
    | some r =>
      simp only [Option.map_some']
      show some (encV v ++ (encL t ++ r)) = some ((encV v ++ encL t) ++ r)
      simp

theorem scanD (kvs : Bdict) : ∀ (rest : List Nat) (stack fuel : Nat),
    wfD kvs = true → (encD kvs ++ rest).length ≤ fuel →
    scanFuel fuel (encD kvs ++ rest) stack =
      (scanFuel fuel rest stack).map (fun r => encD kvs ++ r) := by
  cases kvs with
  | dnil =>
    intro rest stack fuel _ _
    show scanFuel fuel ([] ++ rest) stack =
      (scanFuel fuel rest stack).map (fun r => [] ++ r)
    rw [List.nil_append]
    cases scanFuel fuel rest stack with
    | none => rfl
    | some r => simp
  | dcons k v t =>
    intro rest stack fuel hwf hfu
    have hw : wfV v = true ∧ wfD t = true := by
      simp [wfD, Bool.and_eq_true] at hwf
      exact hwf.2
    have hshape : encD (.dcons k v t) ++ rest =
        encStr k ++ (encV v ++ (encD t ++ rest)) := by
      show (encStr k ++ (encV v ++ encD t)) ++ rest = _
      simp
    have hfu2 : (encStr k ++ (encV v ++ (encD t ++ rest))).length ≤ fuel := by
      rw [← hshape]
      exact hfu
    rw [hshape]
    rw [scanStr k (encV v ++ (encD t ++ rest)) stack fuel hfu2]
    rw [scanV v (encD t ++ rest) stack fuel hw.1
      (by simp only [List.length_append] at hfu2 ⊢; omega)]
    rw [scanD t rest stack fuel hw.2
      (by simp only [List.length_append] at hfu2 ⊢; omega)]
    cases scanFuel fuel rest stack with
    | none => rfl
    | some r =>
      simp only [Option.map_some']
      show some (encStr k ++ (encV v ++ (encD t ++ r))) =
        some ((encStr k ++ (encV v ++ encD t)) ++ r)
      simp

end

theorem findLit_cons (b : Nat) (t : List Nat) :
    findLit (b :: t) =
      if (b :: t).length < 7 then none
      else if (b :: t).take 7 = infoLit then some ((b :: t).drop 7)
      else findLit t := rfl

theorem findLit_append (pre post : List Nat)
    (hno : ∀ i, i < pre.length →
      ((pre ++ infoLit ++ post).drop i).take 7 ≠ infoLit) :
    findLit (pre ++ infoLit ++ post) = some post := by
  induction pre with
  | nil =>
    simp only [List.nil_append]
    have hshape : infoLit ++ post =
        52 :: ([58, 105, 110, 102, 111, 100] ++ post) := rfl
    rw [hshape, findLit_cons, ← hshape]
    have htake7 : List.take 7 (infoLit ++ post) = infoLit :=
      List.take_left' (by decide)
    have hdrop7 : List.drop 7 (infoLit ++ post) = post :=
      List.drop_left' (by decide)
    rw [if_neg (by simp [infoLit]), if_pos htake7, hdrop7]
  | cons p pre' ih =>
    have hshape : (p :: pre') ++ infoLit ++ post =
        p :: (pre' ++ infoLit ++ post) := by simp
    rw [hshape, findLit_cons, ← hshape]
    rw [if_neg (by simp [infoLit]; omega)]
    rw [if_neg (by
      have h0 := hno 0 (by simp)
      simpa using h0)]
    apply ih
    intro i hi
    have h1 := hno (i + 1) (by simp; omega)
    rw [hshape] at h1
    simpa using h1

theorem findLit_none (B : List Nat)
    (hno : ∀ i, (B.drop i).take 7 ≠ infoLit) :
    findLit B = none := by
  induction B with
  | nil => rfl
  | cons b t ih =>
    rw [findLit_cons]
    by_cases hlen : (b :: t).length < 7
    · rw [if_pos hlen]
    · rw [if_neg hlen, if_neg (by simpa using hno 0)]
      apply ih
      intro i
      simpa using hno (i + 1)

theorem scan_dict_body (kvs : Bdict) (suffix : List Nat)
    (hwf : wfD kvs = true) :
    scanFuel (encD kvs ++ eC :: suffix).length (encD kvs ++ eC :: suffix) 0 =
      some (encD kvs) := by
  rw [scanD kvs (eC :: suffix) 0 _ hwf (le_refl _)]
  have hlen : (encD kvs ++ eC :: suffix).length =
      (encD kvs).length + suffix.length + 1 := by
    simp
    omega
  obtain ⟨f', hf⟩ : ∃ f', (encD kvs ++ eC :: suffix).length = f' + 1 :=
    ⟨(encD kvs).length + suffix.length, by omega⟩
  rw [hf, scanFuel_e0]
  simp

theorem get_info_hash_eq_of (input rest body : List Nat)
    (h1 : findLit input = some rest)
    (h2 : scanFuel rest.length rest 0 = some body) :
    get_info_hash input = some (sha1 (dC :: (body ++ [eC]))) := by
  unfold get_info_hash
  simp only [h1, h2]

theorem get_info_hash_none_of (input : List Nat)
    (h1 : findLit input = none) :
    get_info_hash input = none := by
  unfold get_info_hash
  simp only [h1]

theorem encD_concat : ∀ (a b : Bdict),
    encD (dictConcat a b) = encD a ++ encD b
  | .dnil, b => by simp [dictConcat, encD]
  | .dcons k v t, b => by simp [dictConcat, encD, encD_concat t b]

theorem wfD_concat : ∀ (a b : Bdict),
    wfD (dictConcat a b) = (wfD a && wfD b)
  | .dnil, b => by simp [dictConcat, wfD]
  | .dcons k v t, b => by
    simp [dictConcat, wfD, wfD_concat t b, Bool.and_assoc]

theorem validSingleFileMetaInfo_wfD (kvs : Bdict)
    (h : validSingleFileMetaInfo kvs = true) : wfD kvs = true := by
  unfold validSingleFileMetaInfo at h
  simp only [Bool.and_eq_true] at h
  exact h.1.1.1

/-- C1 (amended): when the *first* occurrence of the literal `4:infod` in the
encoded metainfo is the `info` key of the outer dictionary itself (hypothesis
`hfirst`: no window before it matches the literal), `get_info_hash` returns
the SHA-1 of the exact contiguous byte range of the `info` value — the
encoding `encV (.dct ivs)`, a contiguous sub-range of the input including its
opening `d` and terminating `e`, with no re-serialization. The amendment
relative to the claim is the `hfirst` hypothesis: the scanner locates the
first occurrence of the raw literal anywhere in the bytes, which an
`announce` string containing `4:infod` defeats (see
`get_info_hash_wrong_range_cex`). -/
theorem get_info_hash_spec (kvs1 kvs2 ivs : Bdict)
    (hvalid : validSingleFileMetaInfo (metaB kvs1 kvs2 ivs) = true)
    (hfirst : ∀ i, i < (dC :: encD kvs1).length →
      ((encV (.dct (metaB kvs1 kvs2 ivs))).drop i).take 7 ≠ infoLit) :
    get_info_hash (encV (.dct (metaB kvs1 kvs2 ivs))) =
      some (sha1 (encV (.dct ivs))) := by
  have hwfall := validSingleFileMetaInfo_wfD _ hvalid
  have hwfivs : wfD ivs = true := by
    rw [metaB, wfD_concat] at hwfall
    simp only [Bool.and_eq_true, wfD, wfV] at hwfall
    exact hwfall.2.2.1
  have hinfok : encStr infoKeyBytes = [52, 58, 105, 110, 102, 111] := by
    decide
  have hB : encV (.dct (metaB kvs1 kvs2 ivs)) =
      (dC :: encD kvs1) ++ infoLit ++
        (encD ivs ++ eC :: (encD kvs2 ++ [eC])) := by
    show dC :: (encD (metaB kvs1 kvs2 ivs) ++ [eC]) = _
    rw [metaB, encD_concat]
    show dC :: ((encD kvs1 ++
      (encStr infoKeyBytes ++ ((dC :: (encD ivs ++ [eC])) ++ encD kvs2))) ++
        [eC]) = _
    rw [hinfok]
    simp [infoLit, dC, eC]
  rw [hB]
  rw [get_info_hash_eq_of _ (encD ivs ++ eC :: (encD kvs2 ++ [eC]))
    (encD ivs) (findLit_append _ _ (by rw [← hB]; exact hfirst))
    (scan_dict_body ivs _ hwfivs)]
  rfl

/-- C1 counterexample to the claim as stated: `kvs0` is a valid single-file
metainfo whose `announce` string is the seven bytes `4:infod`; the scanner
latches onto that occurrence inside the announce *value* (it precedes the
real `info` key in the encoding), token-scans from the wrong position, and
hashes bytes that are not the `info` value's range, so the result differs
from the SHA-1 of the exact byte range of the `info` value. -/
theorem get_info_hash_wrong_range_cex :
    validSingleFileMetaInfo kvs0 = true ∧
      dictLookup infoKeyBytes kvs0 = some (.dct ivs0) ∧
      get_info_hash (encV (.dct kvs0)) ≠ some (sha1 (encV (.dct ivs0))) := by
  refine ⟨by decide, rfl, by decide⟩

theorem get_info_hash_spec_witness :
    get_info_hash (encV (.dct (metaB kvs1good .dnil ivs0))) =
      some (sha1 (encV (.dct ivs0))) :=
  get_info_hash_spec kvs1good .dnil ivs0 (by decide) (by decide)

/-- C10 (amended): the claimed precondition `scanP` — the literal `4:infod`
present (first occurrence) and followed by a well-formed bracket-balanced
bencode dictionary body with its matching `'e'` — is sufficient for
`get_info_hash` to be total, and on an input without the literal anywhere
the sliding-window scan runs past the end of the input and panics. The
amendment: the precondition is sufficient but not necessary — the token scan
is lenient (e.g. an `i...e` run with non-digit bytes is accepted), see
`get_info_hash_total_without_scanP`. -/
theorem get_info_hash_totality :
    (∀ B : List Nat, scanP B → (get_info_hash B).isSome = true) ∧
    (∀ B : List Nat, (∀ i, (B.drop i).take 7 ≠ infoLit) →
      get_info_hash B = none) := by
  constructor
  · rintro B ⟨pre, kvs, suffix, heq, hwf, hno⟩
    subst heq
    rw [get_info_hash_eq_of _ (encD kvs ++ eC :: suffix) (encD kvs)
      (findLit_append _ _ hno) (scan_dict_body kvs _ hwf)]
    rfl
  · intro B hno
    exact get_info_hash_none_of B (findLit_none B hno)

/-- C10 counterexample to the claim's "only under the precondition":
`4:infod` followed by `iaee` is scanned to completion (the `i`-branch copies
`iae` verbatim without checking digits, then the final `e` closes depth 0),
although `iae` is not a well-formed bencode dictionary body. -/
theorem get_info_hash_total_without_scanP :
    (get_info_hash scanLenient0).isSome = true ∧ ¬ scanP scanLenient0 := by
  constructor
  · decide
  · rintro ⟨pre, kvs, suffix, heq, hwf, hno⟩
    have hpre : pre = [] := by
      cases pre with
      | nil => rfl
      | cons p t =>
        exact absurd (by decide : (scanLenient0.drop 0).take 7 = infoLit)
          (hno 0 (by simp))
    subst hpre
    simp only [List.nil_append] at heq
    have htail : [105, 97, 101, 101] = encD kvs ++ eC :: suffix := by
      have h := heq
      simp only [scanLenient0, infoLit] at h
      simpa using h
    cases kvs with
    | dnil =>
      simp only [encD, List.nil_append] at htail
      have : (105 : Nat) = eC := by
        have := congrArg (fun l => l.headD 0) htail
        simpa using this
      simp [eC] at this
    | dcons k v t =>
      obtain ⟨d, ds', hnd⟩ : ∃ d ds', natDigits k.length = d :: ds' := by
        cases hh : natDigits k.length with
        | nil => exact absurd hh (natDigits_ne_nil _)
        | cons d ds' => exact ⟨d, ds', rfl⟩
      have hd : 48 ≤ d ∧ d ≤ 57 :=
        natDigits_all_digits k.length d (by rw [hnd]; exact List.mem_cons_self _ _)
      have hhead : encD (.dcons k v t) ++ eC :: suffix =
          d :: (ds' ++ colonC :: k ++ (encV v ++ encD t) ++ eC :: suffix) := by
        show (encStr k ++ (encV v ++ encD t)) ++ eC :: suffix = _
        unfold encStr
        rw [hnd]
        simp
      rw [hhead] at htail
      have : (105 : Nat) = d := by
        have := congrArg (fun l => l.headD 0) htail
        simpa using this
      omega

theorem get_info_hash_totality_witness :
    (get_info_hash (infoLit ++ (encD .dnil ++ eC :: []))).isSome = true ∧
      get_info_hash [1, 2, 3] = none := by
  constructor
  · exact get_info_hash_totality.1 _
      ⟨[], .dnil, [], rfl, rfl, by intro i hi; simp at hi⟩
  · refine get_info_hash_totality.2 [1, 2, 3] ?_
    intro i
    intro hcontra
    have hlen : ((([1, 2, 3] : List Nat).drop i).take 7).length ≤ 3 := by
      simp [List.length_take, List.length_drop]
    rw [hcontra] at hlen
    simp [infoLit] at hlen

end TorrentRs
